import Mathlib

/-! # rcc: environment identity and runtime assembly

A verification development for `conda/robocorp.go` and `cmd/rcc/main.go`.

Go strings are byte sequences.  In the directory digest, where the bytes of
names are written into a hash, a Go string is modelled as the list of its
bytes (`GoString`); elsewhere (version texts, environment entries) a Go string
is a Lean `String`.
-/

set_option autoImplicit false

namespace conda

/-! ## Data model of the directory digest -/

/-- A Go string, as its sequence of bytes. -/
abbrev GoString := List Nat

/-- The bytes of an ASCII literal of the source. -/
def ascii (s : String) : GoString := s.toList.map Char.toNat

/-- A folder path, as the list of its components: `filepath.Join` appends a
component and `filepath.Base` is the last one. -/
abbrev Path := List GoString

/-- An I/O error value, as returned by `os.Open` or `Readdir`. -/
abbrev IOError := String

/-- One entry of a directory listing (`os.FileInfo`), together with what is found
below it.  A directory carries the error with which opening or listing it fails,
if any, and the entries `Readdir(-1)` reports, in the order it reports them. -/
inductive Entry where
  | file (name : GoString) (size : Nat)
  | dir (name : GoString) (failure : Option IOError) (entries : List Entry)
  deriving Repr

/-- The method `Name()` of `os.FileInfo`. -/
def Entry.Name : Entry → GoString
  | .file n _ => n
  | .dir n _ _ => n

mutual
/-- Number of nodes of an entry (termination measure of the walk). -/
def Entry.weight : Entry → Nat
  | .file _ _ => 1
  | .dir _ _ es => 1 + weights es
/-- Number of nodes of a listing. -/
def weights : List Entry → Nat
  | [] => 0
  | e :: es => e.weight + weights es
end

/-- Go's `<` on strings: bytewise lexicographic order. -/
def strLess : GoString → GoString → Bool
  | [], [] => false
  | [], _ :: _ => true
  | _ :: _, [] => false
  | a :: as, b :: bs => if a < b then true else if b < a then false else strLess as bs

/-- The comparison handed to `sort.SliceStable` in `sorted`. -/
def nameLess (left right : Entry) : Bool := strLess left.Name right.Name

/-- The order a stable sort with `nameLess` produces: `left` may stay before
`right` unless `right` is strictly less. -/
def nameLE (left right : Entry) : Prop := nameLess right left = false

instance : DecidableRel nameLE := fun a b => by unfold nameLE; infer_instance

/-- `sorted`: `sort.SliceStable` by name.  A stable sort is determined by its
comparison; it is written here as insertion sort. -/
def sorted (files : List Entry) : List Entry := List.insertionSort nameLE files

/-- `strings.ToLower` on one byte, for ASCII letters. -/
def toLowerByte (b : Nat) : Nat := if 65 ≤ b ∧ b ≤ 90 then b + 32 else b

/-- `strings.ToLower`, as used to compare against the ASCII literals
`__pycache__`, `gen` and `comtypes`.  Go folds every Unicode letter, but the
only code points outside ASCII that fold into ASCII are U+0130 (to `i`) and
U+212A (to `k`), and neither letter occurs in these literals, so for these
comparisons only the folding of `A`..`Z` matters. -/
def ToLower (s : GoString) : GoString := s.map toLowerByte

/-- `filepath.Base`: the last component of a path (`.` for the empty path). -/
def Base (folder : Path) : GoString := folder.getLastD (ascii ".")

/-- `filepath.Join(folder, name)`. -/
def Join (folder : Path) (name : GoString) : Path := folder ++ [name]

/-- `ignoreDynamicDirectories`. -/
def ignoreDynamicDirectories (folder : Path) (entryName : GoString) : Bool :=
  let base := ToLower (Base folder)
  let name := ToLower entryName
  name == ascii "__pycache__" || (name == ascii "gen" && base == ascii "comtypes")

/-- One lowercase hexadecimal digit, as a byte. -/
def hexDigit (d : Nat) : Nat := if d < 10 then 48 + d else 87 + d

/-- `fmt.Sprintf("%x", n)` for a non-negative integer. -/
def hex (n : Nat) : GoString :=
  if n = 0 then [48] else (Nat.digits 16 n).reverse.map hexDigit

/-- `fmt.Sprintf("%s -- %x", name, size)`. -/
def repr (name : GoString) (size : Nat) : GoString := name ++ ascii " -- " ++ hex size

/-- `fmt.Sprintf("%02x", result)` for a byte slice: two digits per byte, and
the padding `00` for an empty slice. -/
def hexBytes (result : List Nat) : GoString :=
  if result = [] then [48, 48]
  else result.flatMap fun b => [hexDigit (b / 16 % 16), hexDigit (b % 16)]

/-- The `collect` argument: `none` is the nil map, otherwise an association list
in which the most recent write of a key comes first. -/
abbrev Collect := Option (List (Path × GoString))

/-- `collect[folder] = key`, guarded by `collect != nil`. -/
def Collect.record (collect : Collect) (folder : Path) (key : GoString) : Collect :=
  collect.map fun m => (folder, key) :: m

/-- `collect[folder]` after the call. -/
def Collect.lookup (collect : Collect) (folder : Path) : Option GoString :=
  collect.bind fun m => (m.find? fun kv => kv.1 == folder).map Prod.snd

/-- What a call leaves behind: the returned pair `(digest, err)` and the
`collect` map as mutated so far. -/
abbrev Outcome := Except IOError (List Nat) × Collect

mutual
/-- `DigestFor(folder, collect)` on the directory that fails with `failure` or
lists `entries`; `H` is the hash function (SHA-256 in the source) applied to all
bytes written to the digester. -/
def DigestFor (H : List Nat → List Nat) (folder : Path) (failure : Option IOError)
    (entries : List Entry) (collect : Collect) : Outcome :=
  match failure with
  | some err => (.error err, collect)
  | none =>
    match digestLoop H folder (sorted entries) [] collect with
    | (.error err, collect) => (.error err, collect)
    | (.ok written, collect) =>
      let result := H written
      (.ok result, collect.record folder (hexBytes result))
termination_by (weights entries, 1)
decreasing_by
  have hw : ∀ {l l' : List Entry}, l.Perm l' → weights l = weights l' := by
    intro l l' h
    induction h with
    | nil => rfl
    | cons x _ ih => simp [weights, ih]
    | swap x y l => simp [weights]; omega
    | trans _ _ ih1 ih2 => exact ih1.trans ih2
  rw [show weights (sorted entries) = weights entries from hw (List.perm_insertionSort _ _)]
  exact Prod.Lex.right _ (by decide)
/-- The `for _, entry := range entries` loop of `DigestFor`; `written` is
everything written to the digester so far. -/
def digestLoop (H : List Nat → List Nat) (folder : Path) (entries : List Entry)
    (written : List Nat) (collect : Collect) : Outcome :=
  match entries with
  | [] => (.ok written, collect)
  | .dir name failure below :: rest =>
    if ignoreDynamicDirectories folder name then
      digestLoop H folder rest written collect
    else
      match DigestFor H (Join folder name) failure below collect with
      | (.error err, collect) => (.error err, collect)
      | (.ok digest, collect) => digestLoop H folder rest (written ++ digest) collect
  | .file name size :: rest =>
    digestLoop H folder rest (written ++ repr name size) collect
termination_by (weights entries, 0)
decreasing_by
  all_goals simp only [weights, Entry.weight]
  · exact Prod.Lex.left _ _ (by omega)
  · exact Prod.Lex.left _ _ (by omega)
  · exact Prod.Lex.left _ _ (by omega)
  · exact Prod.Lex.left _ _ (by omega)
end

/-- Names of a listing are pairwise different. -/
def NamesNodup (l : List Entry) : Prop := l.Pairwise fun a b => a.Name ≠ b.Name

/-- The last step of `DigestFor`: hash what was written and record it. -/
def finish (H : List Nat → List Nat) (folder : Path) (o : Outcome) : Outcome :=
  match o with
  | (.error err, collect) => (.error err, collect)
  | (.ok written, collect) => (.ok (H written), collect.record folder (hexBytes (H written)))

/-- Continue the loop after the recursive call on a subdirectory. -/
def resume (H : List Nat → List Nat) (folder : Path) (rest : List Entry) (w : List Nat)
    (o : Outcome) : Outcome :=
  match o with
  | (.error err, collect) => (.error err, collect)
  | (.ok digest, collect) => digestLoop H folder rest (w ++ digest) collect

/-- Two listings of the same directory tree: the second is obtained from the
first by reordering entries, in the directory itself or in any directory below
it. -/
inductive ListingPerm : List Entry → List Entry → Prop
  | refl (l : List Entry) : ListingPerm l l
  | cons (e : Entry) {l l' : List Entry} : ListingPerm l l' → ListingPerm (e :: l) (e :: l')
  | inside (n : GoString) (f : Option IOError) {cs cs' : List Entry} (l : List Entry) :
      ListingPerm cs cs' → ListingPerm (.dir n f cs :: l) (.dir n f cs' :: l)
  | swap (a b : Entry) (l : List Entry) : ListingPerm (a :: b :: l) (b :: a :: l)
  | trans {l₁ l₂ l₃ : List Entry} : ListingPerm l₁ l₂ → ListingPerm l₂ l₃ → ListingPerm l₁ l₃

/-- The same entry up to the order of the listings below it. -/
inductive EntryPerm : Entry → Entry → Prop
  | file (n : GoString) (s : Nat) : EntryPerm (.file n s) (.file n s)
  | dir (n : GoString) (f : Option IOError) {cs cs' : List Entry} :
      ListingPerm cs cs' → EntryPerm (.dir n f cs) (.dir n f cs')

mutual

/-- Below this entry, the names within each directory are distinct. -/
def Entry.DistinctNames : Entry → Prop
  | .file _ _ => True
  | .dir _ _ es => DistinctNames es

/-- The names of the listing are distinct, and so are those within each
directory below it. -/
def DistinctNames : List Entry → Prop
  | [] => True
  | e :: es => (∀ x ∈ es, e.Name ≠ x.Name) ∧ e.DistinctNames ∧ DistinctNames es
end

mutual

/-- An entry with every ignored-dynamic directory below it removed. -/
def Entry.pruned (folder : Path) : Entry → Entry
  | .file n s => .file n s
  | .dir n f es => .dir n f (pruned (Join folder n) es)

/-- The listing of `folder` with every ignored-dynamic directory removed, at
every depth. -/
def pruned (folder : Path) : List Entry → List Entry
  | [] => []
  | .file n s :: es => .file n s :: pruned folder es
  | .dir n f cs :: es =>
    if ignoreDynamicDirectories folder n then pruned folder es
    else .dir n f (pruned (Join folder n) cs) :: pruned folder es
end

/-- Whether the loop of `DigestFor` looks at an entry at all. -/
def kept (folder : Path) : Entry → Bool
  | .file _ _ => true
  | .dir n _ _ => !ignoreDynamicDirectories folder n

/-- The digest `DigestFor` returns when no map is collected: its `(digest, err)`
result alone. -/
def digest (H : List Nat → List Nat) (folder : Path) (failure : Option IOError)
    (entries : List Entry) : Except IOError (List Nat) :=
  (DigestFor H folder failure entries none).1

/-- The bytes the loop of `DigestFor` writes to a fresh digester for a sorted
listing. -/
def stream (H : List Nat → List Nat) (folder : Path) (entries : List Entry) :
    Except IOError (List Nat) :=
  (digestLoop H folder entries [] none).1

/-- The listing `es'` is the listing `es` of `folder` with the size of one file
changed; the file lies in `folder` itself or below directories that are not
ignored-dynamic. -/
inductive SizeChanged : Path → List Entry → List Entry → Prop
  | here (folder : Path) (pre post : List Entry) (n : GoString) (s s' : Nat) : s ≠ s' →
      SizeChanged folder (pre ++ .file n s :: post) (pre ++ .file n s' :: post)
  | inside (folder : Path) (pre post : List Entry) (n : GoString) (f : Option IOError)
      {cs cs' : List Entry} : ignoreDynamicDirectories folder n = false →
      SizeChanged (Join folder n) cs cs' →
      SizeChanged folder (pre ++ .dir n f cs :: post) (pre ++ .dir n f cs' :: post)

/-- The name `n'` compares with the name of every entry of `siblings` as the
name `n` does: an entry renamed from `n` to `n'` keeps its place in the listing
sorted by name. -/
def SamePlace (n n' : GoString) (siblings : List Entry) : Prop :=
  ∀ x ∈ siblings, strLess x.Name n = strLess x.Name n' ∧ strLess n x.Name = strLess n' x.Name

/-- The listing `es'` is the listing `es` of `folder` with one file renamed to a
different name, one that keeps its place among its siblings or has another
length; the file lies in `folder` itself or below directories that are not
ignored-dynamic. -/
inductive FileRenamed : Path → List Entry → List Entry → Prop
  | here (folder : Path) (pre post : List Entry) (n n' : GoString) (s : Nat) : n ≠ n' →
      SamePlace n n' (pre ++ post) ∨ n.length ≠ n'.length →
      FileRenamed folder (pre ++ .file n s :: post) (pre ++ .file n' s :: post)
  | inside (folder : Path) (pre post : List Entry) (n : GoString) (f : Option IOError)
      {cs cs' : List Entry} : ignoreDynamicDirectories folder n = false →
      FileRenamed (Join folder n) cs cs' →
      FileRenamed folder (pre ++ .dir n f cs :: post) (pre ++ .dir n f cs' :: post)

/-- The listing `es'` is the listing `es` of `folder` with one entry, a file or a
directory, renamed to a different name that no sibling has, neither name being
ignored-dynamic; the entry lies in `folder` itself or below directories that are
not ignored-dynamic. -/
inductive Renamed : Path → List Entry → List Entry → Prop
  | file (folder : Path) (pre post : List Entry) (n n' : GoString) (s : Nat) : n ≠ n' →
      (∀ x ∈ pre ++ post, x.Name ≠ n') →
      ignoreDynamicDirectories folder n = false → ignoreDynamicDirectories folder n' = false →
      Renamed folder (pre ++ .file n s :: post) (pre ++ .file n' s :: post)
  | dir (folder : Path) (pre post : List Entry) (n n' : GoString) (f : Option IOError)
      (cs : List Entry) : n ≠ n' → (∀ x ∈ pre ++ post, x.Name ≠ n') →
      ignoreDynamicDirectories folder n = false → ignoreDynamicDirectories folder n' = false →
      Renamed folder (pre ++ .dir n f cs :: post) (pre ++ .dir n' f cs :: post)
  | inside (folder : Path) (pre post : List Entry) (n : GoString) (f : Option IOError)
      {cs cs' : List Entry} : ignoreDynamicDirectories folder n = false →
      Renamed (Join folder n) cs cs' →
      Renamed folder (pre ++ .dir n f cs :: post) (pre ++ .dir n f cs' :: post)

/-! ### Example trees -/

/-- A tree with a subdirectory, as the filesystem lists it. -/
def treeA : List Entry :=
  [.file (ascii "b") 2, .dir (ascii "d") none [.file (ascii "y") 1, .file (ascii "x") 3],
   .file (ascii "a") 27]

/-- The tree `treeA`, listed in another order at both levels. -/
def treeA' : List Entry :=
  [.dir (ascii "d") none [.file (ascii "x") 3, .file (ascii "y") 1], .file (ascii "b") 2,
   .file (ascii "a") 27]

/-- A tree with an unreadable `__PyCache__` and a `gen` below `ComTypes`. -/
def treeB : List Entry :=
  [.file (ascii "a") 1, .dir (ascii "__PyCache__") (some "permission denied") [.file (ascii "x") 1],
   .dir (ascii "ComTypes") none
     [.dir (ascii "gen") none [.file (ascii "g") 5], .file (ascii "z") 2]]

/-- The tree `treeB` without its `__PyCache__` and with another `GEN`. -/
def treeB' : List Entry :=
  [.file (ascii "a") 1,
   .dir (ascii "ComTypes") none [.file (ascii "z") 2, .dir (ascii "GEN") none []]]

/-- A tree with a file below a subdirectory. -/
def treeC (size : Nat) : List Entry :=
  [.dir (ascii "sub") none [.file (ascii "x") size], .file (ascii "a") 1]

/-- A tree with a file named `name` below a subdirectory, next to a file `m`. -/
def treeD (name : GoString) : List Entry :=
  [.dir (ascii "sub") none [.file (ascii "m") 5, .file name 16]]

/-- A tree whose only entry is a directory named `name`. -/
def treeE (name : GoString) : List Entry :=
  [.dir name none [.file (ascii "f") 1]]

/-- Two files, the first named `name`. -/
def treeF (name : GoString) : List Entry :=
  [.file name 1, .file (ascii "a -- 1b -- 1a") 1]

/-! ## Version texts -/

/-- Go's `unicode.IsSpace`. -/
def isSpace (c : Char) : Bool :=
  let n := c.toNat
  (9 ≤ n && n ≤ 13) || n == 32 || n == 0x85 || n == 0xA0 || n == 0x1680 ||
    (0x2000 ≤ n && n ≤ 0x200a) || n == 0x2028 || n == 0x2029 || n == 0x202f ||
    n == 0x205f || n == 0x3000

/-- `strings.TrimSpace`: leading and trailing white space removed. -/
def TrimSpace (s : List Char) : List Char :=
  ((s.dropWhile isSpace).reverse.dropWhile isSpace).reverse

/-- `strings.SplitN(s, sep, n)` for a one-character separator and `n ≥ 0`: at most
`n` pieces, the last one being the unsplit remainder. -/
def SplitN (sep : Char) : Nat → List Char → List (List Char)
  | 0, _ => []
  | 1, s => [s]
  | n + 2, s =>
    if sep ∈ s then s.takeWhile (· != sep) :: SplitN sep (n + 1) ((s.dropWhile (· != sep)).drop 1)
    else [s]

/-- The value of a character as a decimal digit. -/
def digitValue (c : Char) : Nat := c.toNat - 48

/-- `strconv.ParseUint(s, 10, 64)`: `none` stands for an error (empty text, a
character that is not a decimal digit, or a value that does not fit 64 bits). -/
def ParseUint (s : List Char) : Option Nat :=
  if s = [] then none
  else s.foldl (fun acc c =>
    match acc with
    | none => none
    | some n =>
      if c.isDigit then
        if n * 10 + digitValue c < 2 ^ 64 then some (n * 10 + digitValue c) else none
      else none) (some 0)

/-- The loop of `asVersion` over the multipliers and their positions. -/
def versionLoop (parts : List (List Char)) (steps : Nat) : List (Nat × Nat) → Nat → Nat
  | [], version => version
  | (pos, multiplier) :: rest, version =>
    if steps ≤ pos then version
    else
      match ParseUint (parts.getD pos []) with
      | none => version
      | some value => versionLoop parts steps rest ((version + multiplier * value) % 2 ^ 64)

/-- `asVersion`. -/
def asVersion (text : String) : Nat × String :=
  let text := TrimSpace text.toList
  let multiline := SplitN '\n' 2 text
  let text := if multiline.length > 0 then TrimSpace (multiline.getD 0 []) else text
  let parts := SplitN '.' 4 text
  let steps := parts.length
  let multipliers := [1000000, 1000, 1]
  (versionLoop parts steps multipliers.enum 0, String.mk text)

/-- The acceptance test of `HasMicroMamba` on the encoded version. -/
def goodEnough (version : Nat) : Bool := version ≥ 16000

/-- `MicromambaVersion`, given what running the binary with `--version`
captured. -/
def MicromambaVersion (captured : Except String String) : String :=
  match captured with
  | .error err => err
  | .ok versionText => (asVersion versionText).2

/-- `HasMicroMamba`, given whether the binary is a file and what running it
captured. -/
def HasMicroMamba (isFile : Bool) (captured : Except String String) : Bool :=
  if !isFile then false
  else goodEnough (asVersion (MicromambaVersion captured)).1

/-- The number a text of decimal digits denotes. -/
def decimal (s : List Char) : Nat := s.foldl (fun n c => n * 10 + digitValue c) 0

end conda

/-! ## Search paths (package `pathlib`, whose source is not part of this
development) -/

namespace pathlib

/-- Modelled from the spec: the type `pathlib.PathParts`, whose declaration is
missing; an ordered sequence of directory strings. -/
abbrev PathParts := List String

/-- Modelled from the spec: the final path component of an entry, which
`Remove` compares; the text after the last separator, trailing separators
dropped. -/
def baseName (separator : Char) (entry : String) : String :=
  String.mk (((entry.toList.reverse.dropWhile (· == separator)).takeWhile
    (· != separator)).reverse)

/-- Modelled from the spec: `PathParts.Remove(names)`, whose source is missing;
a new list without the entries whose final path component equals one of
`names`, case-sensitively. -/
def Remove (separator : Char) (it : PathParts) (names : List String) : PathParts :=
  it.filter fun entry => !names.contains (baseName separator entry)

/-- Modelled from the spec: `PathParts.Prepend(dirs...)`, whose source is
missing; `dirs` placed before the existing entries, in the given order, an
entry that is already present earlier in the result not being added again. -/
def Prepend (it : PathParts) (dirs : List String) : PathParts :=
  (dirs ++ it).foldl (fun result entry => if entry ∈ result then result else result ++ [entry]) []

/-- Modelled from the spec: `PathParts.Which(name, extensions)`, whose source is
missing; the entries are scanned in order, for each one the name is tried with
each extension in order, and the first candidate that exists is returned. -/
def Which (separator : Char) (isFile : String → Bool) (it : PathParts) (name : String)
    (extensions : List String) : Option String :=
  (it.flatMap fun dir =>
    extensions.map fun ext => dir ++ String.singleton separator ++ name ++ ext).find? isFile

/-- Modelled from the spec: `PathParts.AsEnvironmental(name)`, whose source is
missing; `name=` followed by the entries joined with the path-list separator. -/
def AsEnvironmental (listSeparator : String) (it : PathParts) (name : String) : String :=
  name ++ "=" ++ listSeparator.intercalate it

end pathlib

namespace conda

/-! ## Environment assembly -/

/-- What the environment assembly reads from outside the two source files: the
process environment (`os.Environ`), the system search path
(`pathlib.TargetPath`), `CondaPaths`, `FileExtensions`, which files exist,
`common.RobocorpTemp`, `common.RobocorpHome`, `common.EnvironmentHash`,
`xviper.TrackingIdentity`, `xviper.CanTrack`, `LoadActivationEnvironment`, and
the separators of the platform. -/
structure Host where
  Environ : List String
  TargetPath : pathlib.PathParts
  CondaPaths : String → List String
  FileExtensions : List String
  isFile : String → Bool
  RobocorpTemp : String
  RobocorpHome : String
  EnvironmentHash : String
  TrackingIdentity : String
  CanTrack : Bool
  LoadActivationEnvironment : String → List String
  separator : Char
  listSeparator : String

/-- The variable `ignoredPaths`. -/
def ignoredPaths : List String := ["python", "conda"]

/-- `FindPath`. -/
def FindPath (host : Host) (environment : String) : pathlib.PathParts :=
  let target := host.TargetPath
  let target := pathlib.Remove host.separator target ignoredPaths
  let target := pathlib.Prepend target (host.CondaPaths environment)
  target

/-- The interpreter lookup of `EnvironmentExtensionFor`: `python3` first, then
`python`. -/
def findPython (host : Host) (searchPath : pathlib.PathParts) : Option String :=
  match pathlib.Which host.separator host.isFile searchPath "python3" host.FileExtensions with
  | some python => some python
  | none => pathlib.Which host.separator host.isFile searchPath "python" host.FileExtensions

/-- The entries `EnvironmentExtensionFor` appends in one call after the
interpreter variable. -/
def fixedEntries (host : Host) (location : String) (searchPath : pathlib.PathParts) :
    List String :=
  ["CONDA_DEFAULT_ENV=rcc",
   "CONDA_PREFIX=" ++ location,
   "CONDA_PROMPT_MODIFIER=(rcc) ",
   "CONDA_SHLVL=1",
   "PYTHONHOME=",
   "PYTHONSTARTUP=",
   "PYTHONEXECUTABLE=",
   "PYTHONNOUSERSITE=1",
   "PYTHONDONTWRITEBYTECODE=x",
   "PYTHONPYCACHEPREFIX=" ++ host.RobocorpTemp,
   "ROBOCORP_HOME=" ++ host.RobocorpHome,
   "RCC_ENVIRONMENT_HASH=" ++ host.EnvironmentHash,
   "RCC_INSTALLATION_ID=" ++ host.TrackingIdentity,
   "RCC_TRACKING_ALLOWED=" ++ (if host.CanTrack then "true" else "false"),
   "TEMP=" ++ host.RobocorpTemp,
   "TMP=" ++ host.RobocorpTemp,
   pathlib.AsEnvironmental host.listSeparator searchPath "PATH"]

/-- `EnvironmentExtensionFor`. -/
def EnvironmentExtensionFor (host : Host) (location : String) : List String :=
  let environment : List String := []
  let searchPath := FindPath host location
  let environment :=
    match findPython host searchPath with
    | some python => environment ++ ["PYTHON_EXE=" ++ python]
    | none => environment
  let environment := environment ++ fixedEntries host location searchPath
  let environment := environment ++ host.LoadActivationEnvironment location
  environment

/-- `EnvironmentFor`. -/
def EnvironmentFor (host : Host) (location : String) : List String :=
  host.Environ ++ EnvironmentExtensionFor host location

/-- The key of an entry `KEY=VALUE`: the text before the first `=`; an entry
without `=` has none. -/
def keyOf (entry : String) : Option String :=
  if '=' ∈ entry.toList then some (String.mk (entry.toList.takeWhile (· != '='))) else none

/-- The value of an entry `KEY=VALUE`: the text after the first `=`. -/
def valueOf (entry : String) : String :=
  String.mk ((entry.toList.dropWhile (· != '=')).drop 1)

/-- The value a consumer that lets the last writer win finds for `key`. -/
def lookup (environment : List String) (key : String) : Option String :=
  (environment.reverse.find? fun entry => keyOf entry == some key).map valueOf

/-- The layer the spec gives to a key: 0 interpreter, 1 isolation, 2 identity
and tracking, 3 search path. -/
def layerOf (key : String) : Option Nat :=
  if key = "PYTHON_EXE" then some 0
  else if key ∈ ["CONDA_DEFAULT_ENV", "CONDA_PREFIX", "CONDA_PROMPT_MODIFIER", "CONDA_SHLVL",
      "PYTHONHOME", "PYTHONSTARTUP", "PYTHONEXECUTABLE", "PYTHONNOUSERSITE",
      "PYTHONDONTWRITEBYTECODE", "PYTHONPYCACHEPREFIX", "ROBOCORP_HOME", "TEMP", "TMP"] then some 1
  else if key ∈ ["RCC_ENVIRONMENT_HASH", "RCC_INSTALLATION_ID", "RCC_TRACKING_ALLOWED"] then some 2
  else if key = "PATH" then some 3
  else none

/-- The entries come layer by layer, in the order of the spec: no entry of a
layer is followed by an entry of an earlier layer. -/
def layered (entries : List String) : Bool :=
  ((entries.filterMap fun entry => (keyOf entry).bind layerOf).Pairwise (· ≤ ·) : Bool)

/-- A host with a Python interpreter in the environment and two activation
variables. -/
def exampleHost : Host where
  Environ := ["PATH=/usr/bin", "PYTHONHOME=/usr/lib/python3", "PYTHONNOUSERSITE=0", "HOME=/home/u"]
  TargetPath := ["/usr/bin", "/opt/python", "/bin"]
  CondaPaths := fun environment => [environment ++ "/bin"]
  FileExtensions := [""]
  isFile := fun file => file == "/env/bin/python3"
  RobocorpTemp := "/home/u/.robocorp/temp/1"
  RobocorpHome := "/home/u/.robocorp"
  EnvironmentHash := "0123456789abcdef"
  TrackingIdentity := "id"
  CanTrack := true
  LoadActivationEnvironment := fun _ => ["CONDA_SHLVL=2", "MAMBA=1"]
  separator := '/'
  listSeparator := ":"

/-- The keys of the entries `EnvironmentExtensionFor` emits between the
interpreter variable and the activation variables, in the order of the code. -/
def fixedKeys : List String :=
  ["CONDA_DEFAULT_ENV", "CONDA_PREFIX", "CONDA_PROMPT_MODIFIER", "CONDA_SHLVL", "PYTHONHOME",
   "PYTHONSTARTUP", "PYTHONEXECUTABLE", "PYTHONNOUSERSITE", "PYTHONDONTWRITEBYTECODE",
   "PYTHONPYCACHEPREFIX", "ROBOCORP_HOME", "RCC_ENVIRONMENT_HASH", "RCC_INSTALLATION_ID",
   "RCC_TRACKING_ALLOWED", "TEMP", "TMP", "PATH"]

/-- What `EnvironmentExtensionFor` emits on `exampleHost` before the activation
variables. -/
def exampleHead : List String :=
  ["PYTHON_EXE=/env/bin/python3", "CONDA_DEFAULT_ENV=rcc", "CONDA_PREFIX=/env",
   "CONDA_PROMPT_MODIFIER=(rcc) ", "CONDA_SHLVL=1", "PYTHONHOME=", "PYTHONSTARTUP=",
   "PYTHONEXECUTABLE=", "PYTHONNOUSERSITE=1", "PYTHONDONTWRITEBYTECODE=x",
   "PYTHONPYCACHEPREFIX=/home/u/.robocorp/temp/1", "ROBOCORP_HOME=/home/u/.robocorp",
   "RCC_ENVIRONMENT_HASH=0123456789abcdef", "RCC_INSTALLATION_ID=id",
   "RCC_TRACKING_ALLOWED=true", "TEMP=/home/u/.robocorp/temp/1",
   "TMP=/home/u/.robocorp/temp/1", "PATH=/env/bin:/usr/bin:/bin"]

/-! ### Examples for the later claims -/

/-- Two files `a` of size 1 and `b` of size 2. -/
def treeG : List Entry := [.file (ascii "a") 1, .file (ascii "b") 2]

/-- One file named `a -- 1b`, of size 2. -/
def treeG' : List Entry := [.file (ascii "a -- 1b") 2]

/-- A host whose environment has `python` in its first directory and `python3`
in its second. -/
def pythonFirstHost : Host where
  Environ := ["PATH=/usr/bin"]
  TargetPath := ["/usr/bin"]
  CondaPaths := fun environment => [environment ++ "/Scripts", environment ++ "/bin"]
  FileExtensions := ["", ".exe"]
  isFile := fun file => file == "/env/Scripts/python" || file == "/env/bin/python3"
  RobocorpTemp := "/tmp/rc"
  RobocorpHome := "/home/u/.robocorp"
  EnvironmentHash := "0123456789abcdef"
  TrackingIdentity := "id"
  CanTrack := false
  LoadActivationEnvironment := fun _ => []
  separator := '/'
  listSeparator := ":"

/-- A host whose environment lives in a folder named `python`, and whose system
path names a `python` and a `conda` folder, one directory of the environment,
and `/usr/bin` twice. -/
def pythonNamedHost : Host where
  Environ := []
  TargetPath := ["/usr/bin", "/opt/python", "/envs/python/bin", "/usr/conda", "/usr/bin"]
  CondaPaths := fun environment => [environment, environment ++ "/bin"]
  FileExtensions := [""]
  isFile := fun _ => false
  RobocorpTemp := "/tmp/rc"
  RobocorpHome := "/home/u/.robocorp"
  EnvironmentHash := "0123456789abcdef"
  TrackingIdentity := "id"
  CanTrack := false
  LoadActivationEnvironment := fun _ => []
  separator := '/'
  listSeparator := ":"

/-! ### Versions in version order -/

/-- Version order: the components of `v` compared with those of `w`, the first
difference deciding; `v` is at least `w`. -/
def versionAtLeast (v w : Nat × Nat × Nat) : Bool :=
  decide (w.1 < v.1) ||
    (v.1 == w.1 && (decide (w.2.1 < v.2.1) || (v.2.1 == w.2.1 && decide (w.2.2 ≤ v.2.2))))

/-- The trimmed first line of a text: the text is trimmed, cut at its first line
break, and trimmed again. -/
def firstLine (text : List Char) : List Char :=
  TrimSpace ((TrimSpace text).takeWhile (· != '\n'))

/-- The sum of multiplier times value over the leading components: it stops at
the first component that is missing or that `ParseUint` does not accept, and
when the multipliers run out. -/
def leadingSum : List Nat → List (List Char) → Nat
  | multiplier :: multipliers, part :: parts =>
    match ParseUint part with
    | some value => multiplier * value + leadingSum multipliers parts
    | none => 0
  | _, _ => 0

/-! ### Failures and the collected map -/

mutual
/-- The error of the first directory that cannot be opened or listed, going
through `folder` depth first: the folder itself, then its entries in the order
of their names, each directory that is not ignored-dynamic before the entries
that follow it.  This follows the words of the spec, not the code. -/
def firstFailure (folder : Path) (failure : Option IOError) (entries : List Entry) :
    Option IOError :=
  match failure with
  | some err => some err
  | none => firstFailureIn folder (sorted entries)
termination_by (weights entries, 1)
decreasing_by
  have hw : ∀ {l l' : List Entry}, l.Perm l' → weights l = weights l' := by
    intro l l' h
    induction h with
    | nil => rfl
    | cons x _ ih => simp [weights, ih]
    | swap x y l => simp [weights]; omega
    | trans _ _ ih1 ih2 => exact ih1.trans ih2
  rw [show weights (sorted entries) = weights entries from hw (List.perm_insertionSort _ _)]
  exact Prod.Lex.right _ (by decide)
/-- The first failure among the entries of a sorted listing of `folder`. -/
def firstFailureIn (folder : Path) (entries : List Entry) : Option IOError :=
  match entries with
  | [] => none
  | .file _ _ :: rest => firstFailureIn folder rest
  | .dir name failure below :: rest =>
    if ignoreDynamicDirectories folder name then firstFailureIn folder rest
    else
      match firstFailure (Join folder name) failure below with
      | some err => some err
      | none => firstFailureIn folder rest
termination_by (weights entries, 0)
decreasing_by
  all_goals simp only [weights, Entry.weight]
  · exact Prod.Lex.left _ _ (by omega)
  · exact Prod.Lex.left _ _ (by omega)
  · exact Prod.Lex.left _ _ (by omega)
  · exact Prod.Lex.left _ _ (by omega)
end

/-- The folder, or a directory below it that is reached through directories that
are not ignored-dynamic, cannot be opened or listed. -/
inductive Unreadable : Path → Option IOError → List Entry → Prop
  | here (folder : Path) (err : IOError) (es : List Entry) : Unreadable folder (some err) es
  | inside (folder : Path) (f : Option IOError) (es : List Entry) (n : GoString)
      (f' : Option IOError) (cs : List Entry) : Entry.dir n f' cs ∈ es →
      ignoreDynamicDirectories folder n = false → Unreadable (Join folder n) f' cs →
      Unreadable folder f es

/-- The error of a result, if it is one. -/
def errorOf {α : Type} : Except IOError α → Option IOError
  | .error err => some err
  | .ok _ => none

/-- A tree with three directories listed against the order of their names: `z`
cannot be opened, `m` holds a directory `q` that cannot be opened, and `a` is
readable. -/
def treeH : List Entry :=
  [.dir (ascii "z") (some "z: permission denied") [],
   .dir (ascii "m") none [.file (ascii "f") 1, .dir (ascii "q") (some "q: permission denied") []],
   .dir (ascii "a") none [.file (ascii "g") 2]]

/-- The directory at the path `p`, with the listing `cs`, is visited by
`DigestFor` on `folder` with the listing `es`: it is the folder itself, or it
is reached from it through directories that are not ignored-dynamic. -/
inductive Visited : Path → List Entry → Path → List Entry → Prop
  | root (folder : Path) (es : List Entry) : Visited folder es folder es
  | inside (folder : Path) (es : List Entry) (n : GoString) (f : Option IOError)
      (cs : List Entry) (p : Path) (cs' : List Entry) : Entry.dir n f cs ∈ es →
      ignoreDynamicDirectories folder n = false → Visited (Join folder n) cs p cs' →
      Visited folder es p cs'

/-- A small stand-in for a hash function: the number of bytes written, as one
byte. -/
def toyHash (written : List Nat) : List Nat := [written.length % 256]

/-- What a successful call on a listing with distinct names adds to a map:
records for exactly the visited directories, each readable with its digest. -/
def Records (H : List Nat → List Nat) (es : List Entry) : Prop :=
  ∀ (folder : Path) (f : Option IOError) (m : List (Path × GoString)) (d : List Nat)
    (c' : Collect),
    DistinctNames es → DigestFor H folder f es (some m) = (.ok d, c') →
      ∃ recs, c' = some (recs ++ m) ∧
        (∀ kv ∈ recs, ∃ cs, Visited folder es kv.1 cs) ∧
        ∀ p cs, Visited folder es p cs →
          ∃ dp, digest H p none cs = .ok dp ∧
            Collect.lookup (some recs) p = some (hexBytes dp)

/-- The path `p` is that of an ignored-dynamic directory below `folder`, or lies
beneath one; the ignored directory is in `folder` itself or is reached through
directories that are not ignored-dynamic. -/
inductive BeneathIgnored : Path → List Entry → Path → Prop
  | here (folder : Path) (es : List Entry) (n : GoString) (f : Option IOError)
      (cs : List Entry) (p : Path) : Entry.dir n f cs ∈ es →
      ignoreDynamicDirectories folder n = true → Join folder n <+: p →
      BeneathIgnored folder es p
  | inside (folder : Path) (es : List Entry) (n : GoString) (f : Option IOError)
      (cs : List Entry) (p : Path) : Entry.dir n f cs ∈ es →
      ignoreDynamicDirectories folder n = false → BeneathIgnored (Join folder n) cs p →
      BeneathIgnored folder es p

end conda

/-! ## The command `rcc` (package `main` of `cmd/rcc`) -/

namespace rcc

/-- The constant `timezonekey`. -/
def timezonekey : String := "rcc.cli.tz"

/-- The constant `daily`, in seconds. -/
def daily : Int := 60 * 60 * 24

/-- The value of an `int64` computation: the result wraps around. -/
def wrap64 (x : Int) : Int := (x + 2 ^ 63) % 2 ^ 64 - 2 ^ 63

/-- The field `Stamps` of the cache: a map from event keys to deadlines. -/
abbrev StampMap := String → Option Int

/-- What the process can observe of the outside: the persisted cache and the
metrics handed to `cloud.BackgroundMetric`, oldest first. -/
structure World where
  stamps : StampMap
  metrics : List (String × String × String)

/-- What one call of `TimezoneMetric` finds: the clock `common.When`, the
formatted zone, the controller identity, and the errors with which
`operations.SummonCache` and `cache.Save` fail, if they do. -/
structure Call where
  When : Int
  zone : String
  identity : String
  summonErr : Option String
  saveErr : Option String

/-- `cache.Stamps[key] = deadline`. -/
def StampMap.set (stamps : StampMap) (key : String) (deadline : Int) : StampMap :=
  fun k => if k = key then some deadline else stamps k

/-- `TimezoneMetric`: the returned error and the world it leaves. -/
def TimezoneMetric (env : Call) (w : World) : Option String × World :=
  match env.summonErr with
  | some err => (some err, w)
  | none =>
    let cache := w.stamps
    let ok := (cache timezonekey).isSome
    let deadline := (cache timezonekey).getD 0
    if ok && decide (deadline > env.When) then (none, w)
    else
      let cache := cache.set timezonekey (wrap64 (env.When + daily))
      let w := { w with metrics := w.metrics ++ [(env.identity, timezonekey, env.zone)] }
      match env.saveErr with
      | some err => (some err, w)
      | none => (none, { w with stamps := cache })

/-- A sequence of calls of `TimezoneMetric`, one after the other. -/
def TimezoneMetrics (calls : List Call) (w : World) : World :=
  calls.foldl (fun w env => (TimezoneMetric env w).2) w

/-- A first run on a machine without a cache entry. -/
def freshWorld : World := { stamps := fun _ => none, metrics := [] }

/-- A call at time `t` that finds no failure. -/
def callAt (t : Int) : Call :=
  { When := t, zone := "UTC+0000", identity := "rcc.user", summonErr := none, saveErr := none }


/-! ### The exit protocol -/

/-- A value recovered from a panic: a typed `common.ExitCode`, or any other
value (described by a text). -/
inductive Recovered where
  | exitCode (code : Int) (message : String)
  | other (value : String)
  deriving DecidableEq, Repr

/-- The effects of the exit protocol that can be observed, in the order the code
performs them.  The last three end the deferred function: returning normally,
`os.Exit(code)` and `panic(status)`. -/
inductive Event where
  | WriteFile (filename content : String)
  | Debug (format : String) (arguments : List String)
  | ShowMessage (message : String)
  | BackgroundMetric (identity name value : String)
  | WaitTelemetry
  | WaitLogs
  | Return
  | Exit (code : Int)
  | Panic (status : Recovered)
  deriving DecidableEq, Repr

/-- The event ends the function: nothing is executed after it. -/
def Event.isFinal : Event → Bool
  | .Return => true
  | .Exit _ => true
  | .Panic _ => true
  | _ => false

/-- The event is one of the two flushes. -/
def Event.isFlush : Event → Bool
  | .WaitTelemetry => true
  | .WaitLogs => true
  | _ => false

/-- The event reports the panic-origin metric. -/
def Event.isPanicMetric : Event → Bool
  | .BackgroundMetric _ name _ => name == "rcc.panic.origin"
  | _ => false

/-- What the exit protocol reads from outside: `common.ControllerIdentity()`,
`cmd.Origin()` and `conda.RobocorpTemp()`. -/
structure Env where
  identity : String
  origin : String
  temp : String

/-- `markTempForRecycling`: its effects and the new value of `markedAlready`.
The path of the marker is the temp folder joined with `recycle.now`. -/
def markTempForRecycling (env : Env) (markedAlready : Bool) : List Event × Bool :=
  if markedAlready then ([], markedAlready)
  else
    ([.WriteFile (env.temp ++ "/recycle.now") "True",
      .Debug "Marked %q for recycling." [env.temp]], true)

/-- `ExitProtection`, for the value `recover()` returns (`none` for nil): the
effects in order, ending with how the function is left, and the new value of
`markedAlready`. -/
def ExitProtection (env : Env) (status : Option Recovered) (markedAlready : Bool) :
    List Event × Bool :=
  match status with
  | some status =>
    let (marking, markedAlready) := markTempForRecycling env markedAlready
    match status with
    | .exitCode code message =>
      (marking ++ [.ShowMessage message, .WaitTelemetry, .WaitLogs, .Exit code], markedAlready)
    | .other value =>
      (marking ++ [.BackgroundMetric env.identity "rcc.panic.origin" env.origin,
        .WaitTelemetry, .WaitLogs, .Panic (.other value)], markedAlready)
  | none => ([.WaitTelemetry, .WaitLogs, .Return], markedAlready)

end rcc


namespace rcc

/-! ### The later claims on the command -/

/-- The event is due: no deadline is stored, or the stored one is not in the
future. -/
def due (env : Call) (w : World) : Prop :=
  ∀ d, w.stamps timezonekey = some d → d ≤ env.When

/-- The event writes a file (the recycle marker is the only file the exit
protocol writes). -/
def Event.isMarkerWrite : Event → Bool
  | .WriteFile _ _ => true
  | _ => false

/-- `count` calls of `markTempForRecycling` one after the other: all their
effects and the final value of `markedAlready`. -/
def markTempForRecyclingTimes (env : Env) : Nat → Bool → List Event × Bool
  | 0, markedAlready => ([], markedAlready)
  | count + 1, markedAlready =>
    let (first, markedAlready) := markTempForRecycling env markedAlready
    let (later, markedAlready) := markTempForRecyclingTimes env count markedAlready
    (first ++ later, markedAlready)

/-- The steps of `main`: its own calls, and the effects of the exit protocol. -/
inductive Step where
  | Timeline (text : String)
  | EndOfTimeline
  | GoStartTempRecycling
  | Execute
  | TimezoneMetric
  | SyncStderr
  | SyncStdout
  | effect (e : Event)
  deriving DecidableEq, Repr

/-- The step writes the recycle marker. -/
def Step.isMarkerWrite : Step → Bool
  | .effect e => e.isMarkerWrite
  | _ => false

/-- `main`, for a run in which `cmd.Execute()` completes (`none`) or panics with
a value: the body up to the panic, then the deferred calls in reverse order of
registration, `markedAlready` being false at the start.  After `os.Exit` no
further deferred call runs. -/
def main (env : Env) (panic : Option Recovered) : List Step :=
  let body : List Step :=
    [.Timeline "Start.", .GoStartTempRecycling, .Execute] ++
      (match panic with
        | none => [.Timeline "Command execution done.", .TimezoneMetric]
        | some _ => [])
  let markedAlready := false
  let (marking, markedAlready) := markTempForRecycling env markedAlready
  let (protection, _) := ExitProtection env panic markedAlready
  let exited := protection.any fun e => match e with
    | .Exit _ => true
    | _ => false
  body ++ [.SyncStdout, .SyncStderr] ++ marking.map .effect ++ protection.map .effect ++
    (if exited then [] else [.EndOfTimeline])

/-- What the recycling scan reads from outside: the result of `filepath.Glob`,
the modification times `pathlib.Modtime` reports (nanoseconds), and the reading
of the clock when `time.Since` is evaluated for a marker. -/
structure Scan where
  found : Except String (List String)
  Modtime : String → Except String Int
  clock : String → Int

/-- The effects of the recycling scan. -/
inductive Recycling where
  | Debug (format : String) (arguments : List String)
  | GoRemoveAll (folder : String)
  | Gosched
  deriving DecidableEq, Repr

/-- `filepath.Dir` for the cleaned paths `filepath.Glob` returns: the text before
the last separator. -/
def Dir (filename : String) : String :=
  String.mk (((filename.toList.reverse.dropWhile (· != '/')).drop 1).reverse)

/-- The duration `48*time.Hour`, in nanoseconds. -/
def gracePeriod : Int := 48 * 3600 * 1000000000

/-- `time.Since(changed)` at the clock reading `now`: the difference in
nanoseconds, kept within the range of `time.Duration`. -/
def Since (now changed : Int) : Int := max (-2 ^ 63) (min (2 ^ 63 - 1) (now - changed))

/-- The test of `startTempRecycling` on one marker: the folder is removed. -/
def expired (scan : Scan) (filename : String) : Bool :=
  match scan.Modtime (Dir filename) with
  | .error _ => false
  | .ok changed => decide (Since (scan.clock filename) changed > gracePeriod)

/-- `startTempRecycling`. -/
def startTempRecycling (scan : Scan) : List Recycling :=
  match scan.found with
  | .error err => [.Debug "Recycling failed, reason: %v" [err]]
  | .ok found =>
    (found.filterMap fun filename =>
      let folder := Dir filename
      if expired scan filename then some (.GoRemoveAll folder) else none) ++ [.Gosched]

/-- One hour, in nanoseconds. -/
def hour : Int := 3600 * 1000000000

/-- A scan at clock reading `100 * hour` that finds four markers: in `/t/a`
(changed 49 hours ago), `/t/b` (47 hours ago), `/t/c` (48 hours ago) and `/t/d`
(modification time unreadable).  The markers themselves were all changed 90
hours ago, except the one in `/t/a`, changed one hour ago. -/
def exampleScan : Scan where
  found := .ok ["/t/a/recycle.now", "/t/b/recycle.now", "/t/c/recycle.now", "/t/d/recycle.now"]
  Modtime := fun path =>
    if path = "/t/a" then .ok (51 * hour)
    else if path = "/t/b" then .ok (53 * hour)
    else if path = "/t/c" then .ok (52 * hour)
    else if path = "/t/a/recycle.now" then .ok (99 * hour)
    else if path = "/t/d" then .error "stat failed"
    else .ok (10 * hour)
  clock := fun _ => 100 * hour

end rcc

/-! ## Theorems -/

namespace conda

theorem strLess_irrefl (a : GoString) : strLess a a = false := by
  induction a with
  | nil => rfl
  | cons x xs ih => simp [strLess, ih]

theorem strLess_trans : ∀ (a b c : GoString), strLess a b = true → strLess b c = true →
    strLess a c = true
  | [], [], _, h, _ => by simp [strLess] at h
  | [], _ :: _, [], _, h => by simp [strLess] at h
  | [], _ :: _, _ :: _, _, _ => by simp [strLess]
  | _ :: _, [], _, h, _ => by simp [strLess] at h
  | _ :: _, _ :: _, [], _, h => by simp [strLess] at h
  | x :: xs, y :: ys, z :: zs, h1, h2 => by
    simp only [strLess] at h1 h2 ⊢
    split_ifs at h1 h2 ⊢ <;> first
      | rfl
      | omega
      | exact strLess_trans xs ys zs h1 h2

theorem strLess_asymm (a b : GoString) (h : strLess a b = true) : strLess b a = false := by
  cases hba : strLess b a with
  | false => rfl
  | true => have := strLess_trans a b a h hba; simp [strLess_irrefl] at this

theorem strLess_connex : ∀ (a b : GoString), strLess a b = false → strLess b a = false → a = b
  | [], [], _, _ => rfl
  | [], _ :: _, h, _ => by simp [strLess] at h
  | _ :: _, [], _, h => by simp [strLess] at h
  | x :: xs, y :: ys, h1, h2 => by
    simp only [strLess] at h1 h2
    split_ifs at h1 h2
    have hxy : x = y := by omega
    rw [hxy, strLess_connex xs ys h1 h2]

theorem nameLE_total (a b : Entry) : nameLE a b ∨ nameLE b a := by
  unfold nameLE nameLess
  cases h : strLess b.Name a.Name with
  | false => exact Or.inl rfl
  | true => exact Or.inr (strLess_asymm _ _ h)

theorem nameLE_trans (a b c : Entry) (h1 : nameLE a b) (h2 : nameLE b c) : nameLE a c := by
  unfold nameLE nameLess at *
  cases h : strLess c.Name a.Name with
  | false => rfl
  | true =>
    cases hab : strLess a.Name b.Name with
    | true => rw [strLess_trans _ _ _ h hab] at h2; cases h2
    | false =>
      have := strLess_connex _ _ hab h1
      rw [this] at h; rw [h] at h2; cases h2

instance : IsTotal Entry nameLE := ⟨nameLE_total⟩
instance : IsTrans Entry nameLE := ⟨nameLE_trans⟩

theorem nameLE_congr {a b x y : Entry} (h1 : a.Name = b.Name) (h2 : x.Name = y.Name) :
    nameLE a x ↔ nameLE b y := by
  unfold nameLE nameLess; rw [h1, h2]

theorem sorted_perm (l : List Entry) : (sorted l).Perm l := List.perm_insertionSort _ l

theorem sorted_sorted (l : List Entry) : (sorted l).Sorted nameLE := List.sorted_insertionSort _ l

/-- Insertion respects a pointwise relation between listings that keeps names. -/
theorem orderedInsert_forall₂ {R : Entry → Entry → Prop}
    (hR : ∀ a b, R a b → a.Name = b.Name) {a b : Entry} (hab : R a b) {s s' : List Entry}
    (h : List.Forall₂ R s s') :
    List.Forall₂ R (List.orderedInsert nameLE a s) (List.orderedInsert nameLE b s') := by
  induction h with
  | nil => exact List.Forall₂.cons hab List.Forall₂.nil
  | @cons x y l l' hxy hl ih =>
    simp only [List.orderedInsert]
    have hc : nameLE a x ↔ nameLE b y := nameLE_congr (hR _ _ hab) (hR _ _ hxy)
    by_cases hax : nameLE a x
    · rw [if_pos hax, if_pos (hc.1 hax)]
      exact List.Forall₂.cons hab (List.Forall₂.cons hxy hl)
    · rw [if_neg hax, if_neg (fun h => hax (hc.2 h))]
      exact List.Forall₂.cons hxy ih

theorem sorted_forall₂ {R : Entry → Entry → Prop}
    (hR : ∀ a b, R a b → a.Name = b.Name) {l l' : List Entry} (h : List.Forall₂ R l l') :
    List.Forall₂ R (sorted l) (sorted l') := by
  induction h with
  | nil => exact List.Forall₂.nil
  | cons hab _ ih => exact orderedInsert_forall₂ hR hab ih

theorem sorted_eq_of_perm {l l' : List Entry} (hp : l.Perm l') (hd : NamesNodup l) :
    sorted l = sorted l' := by
  have hs : ∀ m : List Entry, NamesNodup m →
      (sorted m).Sorted (fun a b => strLess a.Name b.Name = true) := by
    intro m hm
    have h1 : (sorted m).Pairwise fun a b => a.Name ≠ b.Name :=
      (sorted_perm m).symm.pairwise hm (fun h => fun e => h e.symm)
    have h2 := sorted_sorted m
    refine (List.Pairwise.and h1 h2).imp ?_
    intro a b ⟨hne, hle⟩
    cases hab : strLess a.Name b.Name with
    | true => rfl
    | false => exact absurd (strLess_connex _ _ hab hle) hne
  have hd' : NamesNodup l' := hp.pairwise hd (fun h => fun e => h e.symm)
  haveI : IsAntisymm Entry (fun a b => strLess a.Name b.Name = true) :=
    ⟨fun a b h1 h2 => by rw [strLess_asymm _ _ h1] at h2; cases h2⟩
  exact List.eq_of_perm_of_sorted (((sorted_perm l).trans hp).trans (sorted_perm l').symm)
    (hs l hd) (hs l' hd')

theorem DigestFor_some (H : List Nat → List Nat) (folder : Path) (err : IOError)
    (es : List Entry) (c : Collect) : DigestFor H folder (some err) es c = (.error err, c) := by
  rw [DigestFor]

theorem DigestFor_none (H : List Nat → List Nat) (folder : Path)
    (es : List Entry) (c : Collect) :
    DigestFor H folder none es c = finish H folder (digestLoop H folder (sorted es) [] c) := by
  rw [DigestFor]; simp only [finish]

theorem digestLoop_nil (H : List Nat → List Nat) (folder : Path) (w : List Nat) (c : Collect) :
    digestLoop H folder [] w c = (.ok w, c) := by
  rw [digestLoop]

theorem digestLoop_file (H : List Nat → List Nat) (folder : Path) (n : GoString) (s : Nat)
    (rest : List Entry) (w : List Nat) (c : Collect) :
    digestLoop H folder (.file n s :: rest) w c = digestLoop H folder rest (w ++ repr n s) c := by
  rw [digestLoop]

theorem digestLoop_ignored (H : List Nat → List Nat) (folder : Path) (n : GoString)
    (f : Option IOError) (cs rest : List Entry) (w : List Nat) (c : Collect)
    (h : ignoreDynamicDirectories folder n = true) :
    digestLoop H folder (.dir n f cs :: rest) w c = digestLoop H folder rest w c := by
  rw [digestLoop, if_pos h]

theorem digestLoop_dir (H : List Nat → List Nat) (folder : Path) (n : GoString)
    (f : Option IOError) (cs rest : List Entry) (w : List Nat) (c : Collect)
    (h : ignoreDynamicDirectories folder n = false) :
    digestLoop H folder (.dir n f cs :: rest) w c =
      resume H folder rest w (DigestFor H (Join folder n) f cs c) := by
  rw [digestLoop, if_neg (by simp [h])]; simp only [resume]

theorem EntryPerm.refl : ∀ e : Entry, EntryPerm e e
  | .file n s => .file n s
  | .dir n f cs => .dir n f (.refl cs)

theorem EntryPerm.name_eq {a b : Entry} (h : EntryPerm a b) : a.Name = b.Name := by
  cases h <;> rfl

theorem EntryPerm.trans {a b c : Entry} (h1 : EntryPerm a b) (h2 : EntryPerm b c) :
    EntryPerm a c := by
  cases h1 with
  | file n s => exact h2
  | dir n f h => cases h2 with
    | dir _ _ h' => exact .dir n f (h.trans h')

theorem forall₂_entryPerm_refl (l : List Entry) : List.Forall₂ EntryPerm l l := by
  induction l with
  | nil => exact .nil
  | cons a l ih => exact .cons (EntryPerm.refl a) ih

theorem forall₂_entryPerm_trans {l₁ l₂ l₃ : List Entry} (h1 : List.Forall₂ EntryPerm l₁ l₂)
    (h2 : List.Forall₂ EntryPerm l₂ l₃) : List.Forall₂ EntryPerm l₁ l₃ := by
  induction h1 generalizing l₃ with
  | nil => exact h2
  | cons hab _ ih =>
    cases h2 with
    | cons hbc h2' => exact .cons (hab.trans hbc) (ih h2')

/-- A reordering at every level is a reordering of the listing itself followed by
reorderings below its entries. -/
theorem ListingPerm.split {l l' : List Entry} (h : ListingPerm l l') :
    ∃ m, l.Perm m ∧ List.Forall₂ EntryPerm m l' := by
  induction h with
  | refl l => exact ⟨l, List.Perm.refl l, forall₂_entryPerm_refl l⟩
  | cons e _ ih =>
    obtain ⟨m, hp, hf⟩ := ih
    exact ⟨e :: m, hp.cons e, .cons (EntryPerm.refl e) hf⟩
  | inside n f l hcs _ =>
    exact ⟨_, List.Perm.refl _, .cons (.dir n f hcs) (forall₂_entryPerm_refl l)⟩
  | swap a b l => exact ⟨b :: a :: l, List.Perm.swap b a l, forall₂_entryPerm_refl _⟩
  | @trans l₁ l₂ l₃ _ _ ih1 ih2 =>
    obtain ⟨m1, hp1, hf1⟩ := ih1
    obtain ⟨m2, hp2, hf2⟩ := ih2
    have hc : (Relation.Comp (List.Forall₂ EntryPerm) List.Perm) m1 m2 := ⟨l₂, hf1, hp2⟩
    rw [List.forall₂_comp_perm_eq_perm_comp_forall₂] at hc
    obtain ⟨k, hk1, hk2⟩ := hc
    exact ⟨k, hp1.trans hk1, forall₂_entryPerm_trans hk2 hf2⟩

theorem DistinctNames.namesNodup : ∀ {l : List Entry}, DistinctNames l → NamesNodup l
  | [], _ => List.Pairwise.nil
  | _ :: _, h => by
    simp only [DistinctNames] at h
    exact List.Pairwise.cons h.1 (DistinctNames.namesNodup h.2.2)

theorem DistinctNames.of_mem : ∀ {l : List Entry}, DistinctNames l → ∀ e ∈ l, e.DistinctNames
  | [], _, e, he => by cases he
  | _ :: _, h, e, he => by
    simp only [DistinctNames] at h
    rcases List.mem_cons.1 he with rfl | he
    · exact h.2.1
    · exact DistinctNames.of_mem h.2.2 e he

theorem weight_le_of_mem : ∀ {l : List Entry} {e : Entry}, e ∈ l → e.weight ≤ weights l
  | [], _, he => by cases he
  | a :: l, e, he => by
    simp only [weights]
    rcases List.mem_cons.1 he with rfl | he
    · omega
    · have := weight_le_of_mem he; omega

/-- Induction over directory trees: a property of listings holds for every
listing when it holds for a listing as soon as it holds for the listings of
the directories in it. -/
theorem listing_induction (P : List Entry → Prop)
    (step : ∀ es, (∀ n f cs, Entry.dir n f cs ∈ es → P cs) → P es) : ∀ es, P es := by
  have aux : ∀ k es, weights es < k → P es := by
    intro k
    induction k with
    | zero => intro es h; exact absurd h (Nat.not_lt_zero _)
    | succ k ih =>
      intro es h
      refine step es (fun n f cs hm => ih cs ?_)
      have := weight_le_of_mem hm
      simp only [Entry.weight] at this
      omega
  exact fun es => aux (weights es + 1) es (Nat.lt_succ_self _)

/-- The loop gives the same outcome on listings that agree entry by entry up to
reorderings below, when the calls on the subdirectories do. -/
theorem digestLoop_entryPerm (H : List Nat → List Nat)
    (P : List Entry → Prop)
    (ih : ∀ cs cs', P cs → ListingPerm cs cs' → ∀ folder f c,
      DigestFor H folder f cs c = DigestFor H folder f cs' c)
    {l l' : List Entry} (h : List.Forall₂ EntryPerm l l')
    (hP : ∀ n f cs, Entry.dir n f cs ∈ l → P cs) (folder : Path) (w : List Nat) (c : Collect) :
    digestLoop H folder l w c = digestLoop H folder l' w c := by
  induction h generalizing w c with
  | nil => rfl
  | @cons a b l l' hab _ ihl =>
    have hrest : ∀ w c, digestLoop H folder l w c = digestLoop H folder l' w c :=
      fun w c => ihl (fun n f cs hm => hP n f cs (List.mem_cons_of_mem _ hm)) w c
    cases hab with
    | file n s => rw [digestLoop_file, digestLoop_file, hrest]
    | @dir n f cs cs' hcs =>
      cases hi : ignoreDynamicDirectories folder n with
      | true => rw [digestLoop_ignored _ _ _ _ _ _ _ _ hi, digestLoop_ignored _ _ _ _ _ _ _ _ hi, hrest]
      | false =>
        rw [digestLoop_dir _ _ _ _ _ _ _ _ hi, digestLoop_dir _ _ _ _ _ _ _ _ hi,
          ih cs cs' (hP n f cs (List.mem_cons_self _ _)) hcs]
        unfold resume
        split
        · rfl
        · exact hrest _ _

theorem DigestFor_listingPerm (H : List Nat → List Nat) :
    ∀ es, ∀ es', DistinctNames es → ListingPerm es es' → ∀ folder f c,
      DigestFor H folder f es c = DigestFor H folder f es' c := by
  refine listing_induction _ ?_
  intro es ih es' hd hp folder f c
  cases f with
  | some err => rw [DigestFor_some, DigestFor_some]
  | none =>
    obtain ⟨m, hpm, hf⟩ := hp.split
    rw [DigestFor_none, DigestFor_none, sorted_eq_of_perm hpm hd.namesNodup]
    congr 1
    refine digestLoop_entryPerm H (fun cs => DistinctNames cs ∧
        ∀ cs', DistinctNames cs → ListingPerm cs cs' → ∀ folder f c,
          DigestFor H folder f cs c = DigestFor H folder f cs' c)
      (fun cs cs' h hcs => h.2 cs' h.1 hcs)
      (sorted_forall₂ (fun _ _ h => h.name_eq) hf) ?_ folder [] c
    intro n f cs hm
    have hmem : Entry.dir n f cs ∈ es := hpm.symm.subset ((sorted_perm m).subset hm)
    have hdn := hd.of_mem _ hmem
    simp only [Entry.DistinctNames] at hdn
    exact ⟨hdn, ih n f cs hmem⟩

theorem Entry.pruned_name (folder : Path) (e : Entry) : (e.pruned folder).Name = e.Name := by
  cases e <;> simp [Entry.pruned, Entry.Name]

theorem pruned_eq_filter_map (folder : Path) (es : List Entry) :
    pruned folder es = ((es.filter (kept folder)).map (Entry.pruned folder)) := by
  induction es with
  | nil => simp [pruned]
  | cons e es ih =>
    cases e with
    | file n s => simp [pruned, kept, Entry.pruned, ih]
    | dir n f cs =>
      cases h : ignoreDynamicDirectories folder n <;> simp [pruned, kept, Entry.pruned, ih, h]

theorem orderedInsert_of_forall_le (a : Entry) (s : List Entry) (h : ∀ x ∈ s, nameLE a x) :
    List.orderedInsert nameLE a s = a :: s := by
  cases s with
  | nil => rfl
  | cons b t => exact List.orderedInsert_of_le _ _ (h b (List.mem_cons_self _ _))

theorem filter_orderedInsert (p : Entry → Bool) (a : Entry) :
    ∀ s : List Entry, s.Sorted nameLE →
      (List.orderedInsert nameLE a s).filter p =
        if p a then List.orderedInsert nameLE a (s.filter p) else s.filter p
  | [], _ => by cases h : p a <;> simp [h]
  | b :: t, hs => by
    have ht : t.Sorted nameLE := hs.of_cons
    by_cases hab : nameLE a b
    · have hall : ∀ x ∈ (b :: t).filter p, nameLE a x := by
        intro x hx
        rcases List.mem_cons.1 (List.mem_filter.1 hx).1 with rfl | hx'
        · exact hab
        · exact nameLE_trans _ _ _ hab (List.rel_of_sorted_cons hs x hx')
      rw [List.orderedInsert_of_le _ _ hab, orderedInsert_of_forall_le a _ hall]
      cases h : p a <;> simp [List.filter_cons, h]
    · have ih := filter_orderedInsert p a t ht
      simp only [List.orderedInsert, if_neg hab, List.filter_cons]
      cases hb : p b <;> cases ha : p a <;> simp [ih, ha, hab]

theorem sorted_filter (p : Entry → Bool) (l : List Entry) :
    sorted (l.filter p) = (sorted l).filter p := by
  induction l with
  | nil => rfl
  | cons a l ih =>
    have h := filter_orderedInsert p a (sorted l) (sorted_sorted l)
    simp only [sorted, List.insertionSort] at h ih ⊢
    rw [h, List.filter_cons]
    cases ha : p a <;> simp [ih]

theorem sorted_map_pruned (folder : Path) (l : List Entry) :
    sorted (l.map (Entry.pruned folder)) = (sorted l).map (Entry.pruned folder) := by
  unfold sorted
  refine (List.map_insertionSort nameLE nameLE (Entry.pruned folder) l ?_).symm
  intro a _ b _
  exact nameLE_congr (Entry.pruned_name folder a).symm (Entry.pruned_name folder b).symm

theorem Base_Join (folder : Path) (n : GoString) : Base (Join folder n) = n := by
  simp [Base, Join]

theorem digestLoop_pruned (H : List Nat → List Nat) (P : List Entry → Prop)
    (ih : ∀ cs, P cs → ∀ folder f c,
      DigestFor H folder f (pruned folder cs) c = DigestFor H folder f cs c)
    (folder : Path) :
    ∀ (l : List Entry), (∀ n f cs, Entry.dir n f cs ∈ l → P cs) → ∀ (w : List Nat) (c : Collect),
      digestLoop H folder ((l.filter (kept folder)).map (Entry.pruned folder)) w c =
        digestLoop H folder l w c
  | [], _, w, c => rfl
  | .file n s :: l, hP, w, c => by
    simp only [List.filter_cons, kept, if_true, List.map_cons, Entry.pruned]
    rw [digestLoop_file, digestLoop_file]
    exact digestLoop_pruned H P ih folder l
      (fun n f cs hm => hP n f cs (List.mem_cons_of_mem _ hm)) _ _
  | .dir n f cs :: l, hP, w, c => by
    have hrest := digestLoop_pruned H P ih folder l
      (fun n f cs hm => hP n f cs (List.mem_cons_of_mem _ hm))
    cases hi : ignoreDynamicDirectories folder n with
    | true =>
      rw [digestLoop_ignored _ _ _ _ _ _ _ _ hi]
      simp only [List.filter_cons, kept, hi]
      exact hrest w c
    | false =>
      simp only [List.filter_cons, kept, hi, Bool.not_false, if_true, List.map_cons,
        Entry.pruned]
      rw [digestLoop_dir _ _ _ _ _ _ _ _ hi, digestLoop_dir _ _ _ _ _ _ _ _ hi,
        ih cs (hP n f cs (List.mem_cons_self _ _))]
      unfold resume
      split
      · rfl
      · exact hrest _ _

theorem DigestFor_pruned (H : List Nat → List Nat) :
    ∀ es, ∀ folder f c,
      DigestFor H folder f (pruned folder es) c = DigestFor H folder f es c := by
  refine listing_induction _ ?_
  intro es ih folder f c
  cases f with
  | some err => rw [DigestFor_some, DigestFor_some]
  | none =>
    rw [DigestFor_none, DigestFor_none, pruned_eq_filter_map, sorted_map_pruned, sorted_filter]
    congr 1
    exact digestLoop_pruned H _ (fun cs h => h) folder _
      (fun n f cs hm => ih n f cs ((sorted_perm es).subset hm)) [] c

theorem finish_fst (H : List Nat → List Nat) (folder : Path) (o : Outcome) :
    (finish H folder o).1 = o.1.map H := by
  obtain ⟨r, c⟩ := o
  cases r <;> rfl

theorem digestLoop_fst_of (H : List Nat → List Nat) (P : List Entry → Prop)
    (ih : ∀ cs, P cs → ∀ folder f c,
      (DigestFor H folder f cs c).1 = digest H folder f cs)
    (folder : Path) :
    ∀ (l : List Entry), (∀ n f cs, Entry.dir n f cs ∈ l → P cs) → ∀ (w : List Nat) (c : Collect),
      (digestLoop H folder l w c).1 = (stream H folder l).map (fun t => w ++ t)
  | [], _, w, c => by simp [stream, digestLoop_nil, Except.map]
  | .file n s :: l, hP, w, c => by
    have hrest := digestLoop_fst_of H P ih folder l
      (fun n f cs hm => hP n f cs (List.mem_cons_of_mem _ hm))
    unfold stream
    rw [digestLoop_file, digestLoop_file, hrest, hrest ([] ++ repr n s) none]
    cases stream H folder l <;> simp [Except.map]
  | .dir n f cs :: l, hP, w, c => by
    have hrest := digestLoop_fst_of H P ih folder l
      (fun n f cs hm => hP n f cs (List.mem_cons_of_mem _ hm))
    cases hi : ignoreDynamicDirectories folder n with
    | true =>
      unfold stream
      rw [digestLoop_ignored _ _ _ _ _ _ _ _ hi, digestLoop_ignored _ _ _ _ _ _ _ _ hi, hrest]
      rfl
    | false =>
      unfold stream
      rw [digestLoop_dir _ _ _ _ _ _ _ _ hi, digestLoop_dir _ _ _ _ _ _ _ _ hi]
      have hc := ih cs (hP n f cs (List.mem_cons_self _ _)) (Join folder n) f c
      unfold digest at hc
      rcases h1 : DigestFor H (Join folder n) f cs c with ⟨r1, c1⟩
      rcases h2 : DigestFor H (Join folder n) f cs none with ⟨r2, c2⟩
      rw [h1, h2] at hc
      simp only at hc
      subst hc
      cases r1 with
      | error e => rfl
      | ok d =>
        simp only [resume]
        rw [hrest, hrest ([] ++ d) c2]
        cases stream H folder l <;> simp [Except.map]

/-- The returned digest does not depend on the `collect` argument. -/
theorem DigestFor_fst (H : List Nat → List Nat) :
    ∀ es, ∀ folder f c, (DigestFor H folder f es c).1 = digest H folder f es := by
  refine listing_induction _ ?_
  intro es ih folder f c
  unfold digest
  cases f with
  | some err => rw [DigestFor_some, DigestFor_some]
  | none =>
    have hl := digestLoop_fst_of H _ (fun cs h => h) folder (sorted es)
      (fun n f cs hm => ih n f cs ((sorted_perm es).subset hm))
    rw [DigestFor_none, DigestFor_none, finish_fst, finish_fst, hl, hl [] none]

theorem digestLoop_fst (H : List Nat → List Nat) (folder : Path) (l : List Entry)
    (w : List Nat) (c : Collect) :
    (digestLoop H folder l w c).1 = (stream H folder l).map (fun t => w ++ t) :=
  digestLoop_fst_of H (fun _ => True) (fun cs _ folder f c => DigestFor_fst H cs folder f c)
    folder l (fun _ _ _ _ => trivial) w c

theorem stream_nil (H : List Nat → List Nat) (folder : Path) : stream H folder [] = .ok [] := by
  simp [stream, digestLoop_nil]

theorem stream_file (H : List Nat → List Nat) (folder : Path) (n : GoString) (s : Nat)
    (q : List Entry) :
    stream H folder (.file n s :: q) = (stream H folder q).map (fun t => repr n s ++ t) := by
  rw [stream, digestLoop_file, digestLoop_fst]; rfl

theorem stream_ignored (H : List Nat → List Nat) (folder : Path) (n : GoString)
    (f : Option IOError) (cs q : List Entry) (h : ignoreDynamicDirectories folder n = true) :
    stream H folder (.dir n f cs :: q) = stream H folder q := by
  rw [stream, digestLoop_ignored _ _ _ _ _ _ _ _ h]; rfl

theorem stream_dir (H : List Nat → List Nat) (folder : Path) (n : GoString)
    (f : Option IOError) (cs q : List Entry) (h : ignoreDynamicDirectories folder n = false) :
    stream H folder (.dir n f cs :: q) =
      match digest H (Join folder n) f cs with
      | .error err => .error err
      | .ok d => (stream H folder q).map (fun t => d ++ t) := by
  rw [stream, digestLoop_dir _ _ _ _ _ _ _ _ h, digest]
  rcases h2 : DigestFor H (Join folder n) f cs none with ⟨r2, c2⟩
  cases r2 with
  | error e => rfl
  | ok d => simp only [resume]; rw [digestLoop_fst]; rfl

theorem digest_some (H : List Nat → List Nat) (folder : Path) (err : IOError)
    (es : List Entry) : digest H folder (some err) es = .error err := by
  rw [digest, DigestFor_some]

theorem digest_none (H : List Nat → List Nat) (folder : Path) (es : List Entry) :
    digest H folder none es = (stream H folder (sorted es)).map H := by
  rw [digest, DigestFor_none, finish_fst]; rfl

/-! ### One entry replaced in a listing -/

theorem orderedInsert_replace {a b : Entry} :
    ∀ s : List Entry, (∀ x ∈ s, nameLE a x ↔ nameLE b x) →
      ∃ p q, List.orderedInsert nameLE a s = p ++ a :: q ∧
        List.orderedInsert nameLE b s = p ++ b :: q
  | [], _ => ⟨[], [], rfl, rfl⟩
  | x :: s, h => by
    have hx := h x (List.mem_cons_self _ _)
    by_cases hax : nameLE a x
    · exact ⟨[], x :: s, by simp [List.orderedInsert, hax], by simp [List.orderedInsert, hx.1 hax]⟩
    · obtain ⟨p, q, h1, h2⟩ := orderedInsert_replace s (fun y hy => h y (List.mem_cons_of_mem _ hy))
      refine ⟨x :: p, q, ?_, ?_⟩
      · simp [List.orderedInsert, hax, h1]
      · have hbx : ¬ nameLE b x := fun hb => hax (hx.2 hb)
        simp [List.orderedInsert, hbx, h2]

theorem orderedInsert_into_replace {a b x : Entry} (hx : nameLE x a ↔ nameLE x b)
    (q : List Entry) :
    ∀ p : List Entry, ∃ p' q', List.orderedInsert nameLE x (p ++ a :: q) = p' ++ a :: q' ∧
        List.orderedInsert nameLE x (p ++ b :: q) = p' ++ b :: q'
  | [] => by
    by_cases hxa : nameLE x a
    · exact ⟨[x], q, by simp [List.orderedInsert, hxa], by simp [List.orderedInsert, hx.1 hxa]⟩
    · have hxb : ¬ nameLE x b := fun hb => hxa (hx.2 hb)
      exact ⟨[], List.orderedInsert nameLE x q, by simp [List.orderedInsert, hxa],
        by simp [List.orderedInsert, hxb]⟩
  | y :: p => by
    by_cases hxy : nameLE x y
    · exact ⟨x :: y :: p, q, by simp [List.orderedInsert, hxy], by simp [List.orderedInsert, hxy]⟩
    · obtain ⟨p', q', h1, h2⟩ := orderedInsert_into_replace hx q p
      exact ⟨y :: p', q', by simp [List.orderedInsert, hxy, h1],
        by simp [List.orderedInsert, hxy, h2]⟩

/-- Replacing an entry by one that compares with all others in the same way
replaces it in the sorted listing, at the same place. -/
theorem sorted_replace {a b : Entry} (post : List Entry) :
    ∀ pre : List Entry, (∀ x ∈ pre ++ post, (nameLE a x ↔ nameLE b x) ∧ (nameLE x a ↔ nameLE x b)) →
      ∃ p q, sorted (pre ++ a :: post) = p ++ a :: q ∧ sorted (pre ++ b :: post) = p ++ b :: q
  | [], h => by
    simp only [List.nil_append, sorted, List.insertionSort]
    refine orderedInsert_replace _ ?_
    intro x hx
    exact (h x (by simpa using (List.perm_insertionSort nameLE post).subset hx)).1
  | x :: pre, h => by
    obtain ⟨p, q, h1, h2⟩ := sorted_replace post pre
      (fun y hy => h y (by simp only [List.cons_append]; exact List.mem_cons_of_mem _ hy))
    have key := orderedInsert_into_replace (h x (by simp)).2 q p
    rw [← h1, ← h2] at key
    exact key

theorem stream_append (H : List Nat → List Nat) (folder : Path) (q : List Entry) :
    ∀ p : List Entry, stream H folder (p ++ q) =
      match stream H folder p with
      | .error err => .error err
      | .ok a => (stream H folder q).map (fun t => a ++ t)
  | [] => by
    simp only [List.nil_append, stream_nil]
    cases stream H folder q <;> simp [Except.map]
  | .file n s :: p => by
    rw [List.cons_append, stream_file, stream_file, stream_append H folder q p]
    cases stream H folder p <;> cases stream H folder q <;> simp [Except.map]
  | .dir n f cs :: p => by
    cases hi : ignoreDynamicDirectories folder n with
    | true =>
      rw [List.cons_append, stream_ignored _ _ _ _ _ _ hi, stream_ignored _ _ _ _ _ _ hi,
        stream_append H folder q p]
    | false =>
      rw [List.cons_append, stream_dir _ _ _ _ _ _ hi, stream_dir _ _ _ _ _ _ hi,
        stream_append H folder q p]
      cases digest H (Join folder n) f cs <;> cases stream H folder p <;>
        cases stream H folder q <;> simp [Except.map]

/-- What the loop writes for one entry. -/
theorem stream_middle (H : List Nat → List Nat) (folder : Path) (p q : List Entry) (x : Entry)
    (W : List Nat) :
    stream H folder (p ++ x :: q) = .ok W ↔
      ∃ a m t, stream H folder p = .ok a ∧ stream H folder [x] = .ok m ∧
        stream H folder q = .ok t ∧ W = a ++ m ++ t := by
  have h1 := stream_append H folder (x :: q) p
  have h2 := stream_append H folder q [x]
  simp only [List.singleton_append] at h2
  rw [h1, h2]
  cases stream H folder p <;> cases stream H folder [x] <;> cases stream H folder q <;>
    simp [Except.map, eq_comm]

theorem digest_ok_iff (H : List Nat → List Nat) (folder : Path) (f : Option IOError)
    (es : List Entry) (d : List Nat) :
    digest H folder f es = .ok d ↔
      f = none ∧ ∃ W, stream H folder (sorted es) = .ok W ∧ d = H W := by
  cases f with
  | some err => simp [digest_some]
  | none =>
    rw [digest_none]
    cases stream H folder (sorted es) <;> simp [Except.map, eq_comm]

/-- Replacing one entry of a listing by one whose own contribution to the stream
differs changes the digest of the folder. -/
theorem digest_replace (H : List Nat → List Nat) (hH : Function.Injective H) (folder : Path)
    (pre post : List Entry) (a b : Entry)
    (hcmp : ∀ x ∈ pre ++ post, (nameLE a x ↔ nameLE b x) ∧ (nameLE x a ↔ nameLE x b))
    (hab : ∀ m, stream H folder [a] = .ok m → ∃ m', stream H folder [b] = .ok m' ∧ m' ≠ m)
    (f : Option IOError) (d : List Nat)
    (hd : digest H folder f (pre ++ a :: post) = .ok d) :
    ∃ d', digest H folder f (pre ++ b :: post) = .ok d' ∧ d' ≠ d := by
  obtain ⟨p, q, hp, hq⟩ := sorted_replace post pre hcmp
  rw [digest_ok_iff, hp] at hd
  obtain ⟨hf, W, hW, rfl⟩ := hd
  obtain ⟨u, m, t, hu, hm, ht, rfl⟩ := (stream_middle H folder p q a W).1 hW
  obtain ⟨m', hm', hne⟩ := hab m hm
  refine ⟨H (u ++ m' ++ t), ?_, ?_⟩
  · rw [digest_ok_iff, hq]
    exact ⟨hf, _, (stream_middle H folder p q b _).2 ⟨u, m', t, hu, hm', ht, rfl⟩, rfl⟩
  · intro h
    have := hH h
    simp only [List.append_assoc, List.append_cancel_left_eq, List.append_cancel_right_eq] at this
    exact hne this

/-! ### The records written for files -/

theorem hexDigit_eq_zero {d : Nat} (h : hexDigit d = 48) : d = 0 := by
  unfold hexDigit at h
  split_ifs at h <;> omega

theorem hexDigit_inj {a b : Nat} (ha : a < 16) (hb : b < 16) (h : hexDigit a = hexDigit b) :
    a = b := by
  unfold hexDigit at h
  split_ifs at h <;> omega

theorem map_hexDigit_inj : ∀ {l l' : List Nat}, (∀ x ∈ l, x < 16) → (∀ x ∈ l', x < 16) →
    l.map hexDigit = l'.map hexDigit → l = l'
  | [], [], _, _, _ => rfl
  | [], _ :: _, _, _, h => by simp at h
  | _ :: _, [], _, _, h => by simp at h
  | a :: l, b :: l', h1, h2, h => by
    simp only [List.map_cons, List.cons.injEq] at h
    rw [hexDigit_inj (h1 a (List.mem_cons_self _ _)) (h2 b (List.mem_cons_self _ _)) h.1,
      map_hexDigit_inj (fun x hx => h1 x (List.mem_cons_of_mem _ hx))
        (fun x hx => h2 x (List.mem_cons_of_mem _ hx)) h.2]

theorem hex_ne_zero {n : Nat} (hn : n ≠ 0) : hex n ≠ [48] := by
  intro h
  simp only [hex, if_neg hn] at h
  have hlen : (Nat.digits 16 n).length = 1 := by
    have := congrArg List.length h
    simpa using this
  obtain ⟨d, hd⟩ := List.length_eq_one.1 hlen
  rw [hd] at h
  simp only [List.reverse_singleton, List.map_cons, List.map_nil, List.cons.injEq, and_true] at h
  have h0 := hexDigit_eq_zero h
  have := Nat.getLast_digit_ne_zero 16 hn
  simp [hd, h0] at this

theorem hex_injective : Function.Injective hex := by
  intro a b h
  by_cases ha : a = 0
  · by_cases hb : b = 0
    · rw [ha, hb]
    · subst ha
      exact absurd h.symm (by simpa [hex] using hex_ne_zero hb)
  · by_cases hb : b = 0
    · subst hb
      exact absurd h (by simpa [hex] using hex_ne_zero ha)
    · simp only [hex, if_neg ha, if_neg hb] at h
      have hd : (Nat.digits 16 a).reverse = (Nat.digits 16 b).reverse :=
        map_hexDigit_inj
          (fun x hx => Nat.digits_lt_base (by decide) (List.mem_reverse.1 hx))
          (fun x hx => Nat.digits_lt_base (by decide) (List.mem_reverse.1 hx)) h
      exact Nat.digits_inj_iff.1 (List.reverse_injective hd)

theorem stream_single_file (H : List Nat → List Nat) (folder : Path) (n : GoString) (s : Nat) :
    stream H folder [.file n s] = .ok (repr n s) := by
  rw [stream_file, stream_nil]; simp [Except.map]

theorem stream_single_dir (H : List Nat → List Nat) (folder : Path) (n : GoString)
    (f : Option IOError) (cs : List Entry) (h : ignoreDynamicDirectories folder n = false) :
    stream H folder [.dir n f cs] = digest H (Join folder n) f cs := by
  rw [stream_dir _ _ _ _ _ _ h, stream_nil]
  cases digest H (Join folder n) f cs <;> simp [Except.map]

theorem digest_sizeChanged (H : List Nat → List Nat) (hH : Function.Injective H)
    {folder : Path} {es es' : List Entry} (h : SizeChanged folder es es') :
    ∀ (f : Option IOError) (d : List Nat), digest H folder f es = .ok d →
      ∃ d', digest H folder f es' = .ok d' ∧ d' ≠ d := by
  induction h with
  | here folder pre post n s s' hs =>
    intro f d hd
    refine digest_replace H hH folder pre post _ _ ?_ ?_ f d hd
    · intro x _
      exact ⟨nameLE_congr rfl rfl, nameLE_congr rfl rfl⟩
    · intro m hm
      rw [stream_single_file] at hm
      refine ⟨repr n s', stream_single_file H folder n s', ?_⟩
      rintro h
      rw [← Except.ok.inj hm] at h
      simp only [repr, List.append_cancel_left_eq] at h
      exact hs (hex_injective h.symm)
  | inside folder pre post n f0 hi _ ih =>
    intro f d hd
    refine digest_replace H hH folder pre post _ _ ?_ ?_ f d hd
    · intro x _
      exact ⟨nameLE_congr rfl rfl, nameLE_congr rfl rfl⟩
    · intro m hm
      rw [stream_single_dir _ _ _ _ _ hi] at hm ⊢
      exact ih f0 m hm

/-- The number of bytes the loop writes does not depend on the order of the
listing. -/
theorem stream_perm_length (H : List Nat → List Nat) (folder : Path) {l l' : List Entry}
    (h : l.Perm l') : ∀ W, stream H folder l = .ok W →
      ∃ W', stream H folder l' = .ok W' ∧ W'.length = W.length := by
  induction h with
  | nil => intro W hW; exact ⟨W, hW, rfl⟩
  | @cons x l l' _ ih =>
    intro W hW
    obtain ⟨a, m, t, ha, hm, ht, rfl⟩ := (stream_middle H folder [] l x W).1 hW
    obtain ⟨t', ht', hlen⟩ := ih t ht
    exact ⟨a ++ m ++ t', (stream_middle H folder [] l' x _).2 ⟨a, m, t', ha, hm, ht', rfl⟩,
      by simp [hlen]⟩
  | swap x y l =>
    intro W hW
    obtain ⟨a, my, t, ha, hmy, ht, rfl⟩ := (stream_middle H folder [] (x :: l) y W).1 hW
    obtain ⟨a', mx, t', ha', hmx, ht', rfl⟩ := (stream_middle H folder [] l x t).1 ht
    refine ⟨a ++ mx ++ (a' ++ my ++ t'),
      (stream_middle H folder [] (y :: l) x _).2
        ⟨a, mx, _, ha, hmx, (stream_middle H folder [] l y _).2 ⟨a', my, t', ha', hmy, ht', rfl⟩,
          rfl⟩, ?_⟩
    simp only [List.length_append]
    omega
  | trans _ _ ih1 ih2 =>
    intro W hW
    obtain ⟨W1, h1, hl1⟩ := ih1 W hW
    obtain ⟨W2, h2, hl2⟩ := ih2 W1 h1
    exact ⟨W2, h2, hl2.trans hl1⟩

/-- Renaming a file to a name of another length changes the digest of its
folder. -/
theorem digest_rename_length (H : List Nat → List Nat) (hH : Function.Injective H)
    (folder : Path) (pre post : List Entry) (n n' : GoString) (s : Nat)
    (hlen : n.length ≠ n'.length) (f : Option IOError) (d : List Nat)
    (hd : digest H folder f (pre ++ .file n s :: post) = .ok d) :
    ∃ d', digest H folder f (pre ++ .file n' s :: post) = .ok d' ∧ d' ≠ d := by
  rw [digest_ok_iff] at hd
  obtain ⟨hf, W, hW, rfl⟩ := hd
  have hp : ∀ x : Entry, (sorted (pre ++ x :: post)).Perm (x :: (pre ++ post)) :=
    fun x => (sorted_perm _).trans List.perm_middle
  obtain ⟨W1, hW1, hl1⟩ := stream_perm_length H folder (hp _) W hW
  obtain ⟨a, m, t, ha, hm, ht, rfl⟩ := (stream_middle H folder [] _ _ W1).1 hW1
  rw [stream_single_file] at hm
  have hW2 : stream H folder (.file n' s :: (pre ++ post)) = .ok (a ++ repr n' s ++ t) :=
    (stream_middle H folder [] _ _ _).2 ⟨a, _, t, ha, stream_single_file H folder n' s, ht, rfl⟩
  obtain ⟨W', hW', hl'⟩ := stream_perm_length H folder (hp _).symm _ hW2
  refine ⟨H W', (digest_ok_iff H folder f _ _).2 ⟨hf, W', hW', rfl⟩, ?_⟩
  intro h
  have hWW : W'.length = W.length := congrArg List.length (hH h)
  rw [hl', ← hl1, ← Except.ok.inj hm] at hWW
  simp only [repr, List.length_append] at hWW
  omega

theorem digest_fileRenamed (H : List Nat → List Nat) (hH : Function.Injective H)
    {folder : Path} {es es' : List Entry} (h : FileRenamed folder es es') :
    ∀ (f : Option IOError) (d : List Nat), digest H folder f es = .ok d →
      ∃ d', digest H folder f es' = .ok d' ∧ d' ≠ d := by
  induction h with
  | here folder pre post n n' s hn hplace =>
    intro f d hd
    rcases hplace with hplace | hlen
    · refine digest_replace H hH folder pre post _ _ ?_ ?_ f d hd
      · intro x hx
        obtain ⟨h1, h2⟩ := hplace x hx
        have e1 : (Entry.file n s).Name = n := rfl
        have e2 : (Entry.file n' s).Name = n' := rfl
        unfold nameLE nameLess
        rw [e1, e2, h1, h2]
        exact ⟨Iff.rfl, Iff.rfl⟩
      · intro m hm
        rw [stream_single_file] at hm
        refine ⟨repr n' s, stream_single_file H folder n' s, ?_⟩
        rintro h
        rw [← Except.ok.inj hm] at h
        simp only [repr, List.append_cancel_right_eq] at h
        exact hn h.symm
    · exact digest_rename_length H hH folder pre post n n' s hlen f d hd
  | inside folder pre post n f0 hi _ ih =>
    intro f d hd
    refine digest_replace H hH folder pre post _ _ ?_ ?_ f d hd
    · intro x _
      exact ⟨nameLE_congr rfl rfl, nameLE_congr rfl rfl⟩
    · intro m hm
      rw [stream_single_dir _ _ _ _ _ hi] at hm ⊢
      exact ih f0 m hm

/-! ### The claims on the digest -/

/-- C1: the outcome of `DigestFor` (digest, error and collected map) does not
depend on the order in which the entries of the folder, or of any directory
below it, are listed, the names within each directory being distinct. -/
theorem DigestFor_listing_order (H : List Nat → List Nat) (folder : Path)
    (failure : Option IOError) (es es' : List Entry) (collect : Collect)
    (hd : DistinctNames es) (hp : ListingPerm es es') :
    DigestFor H folder failure es collect = DigestFor H folder failure es' collect :=
  DigestFor_listingPerm H es es' hd hp folder failure collect

/-- The listing-order theorem on `treeA` and its reordering `treeA'`. -/
theorem DigestFor_listing_order_witness :
    DistinctNames treeA ∧ ListingPerm treeA treeA' ∧
      DigestFor id [ascii "env"] none treeA (some []) =
        DigestFor id [ascii "env"] none treeA' (some []) :=
  have hd : DistinctNames treeA := by
    simp [treeA, DistinctNames, Entry.DistinctNames, Entry.Name, ascii]
  have hp : ListingPerm treeA treeA' := .trans (.swap _ _ _) (.inside _ _ _ (.swap _ _ _))
  ⟨hd, hp, DigestFor_listing_order id [ascii "env"] none treeA treeA' (some []) hd hp⟩

/-- C2: the outcome of `DigestFor` is the same for two trees that agree once
every ignored-dynamic directory (`__pycache__` anywhere, `gen` directly inside
`comtypes`, both case-insensitively) is removed from them at every depth: such
directories may be added, removed, or changed in any way, unreadable ones
included. -/
theorem DigestFor_ignores_dynamic (H : List Nat → List Nat) (folder : Path)
    (failure : Option IOError) (es es' : List Entry) (collect : Collect)
    (h : pruned folder es = pruned folder es') :
    DigestFor H folder failure es collect = DigestFor H folder failure es' collect := by
  rw [← DigestFor_pruned H es, ← DigestFor_pruned H es', h]

/-- The ignored-directories theorem on `treeB` and `treeB'`. -/
theorem DigestFor_ignores_dynamic_witness :
    pruned [ascii "env"] treeB = pruned [ascii "env"] treeB' ∧
      DigestFor id [ascii "env"] none treeB (some []) =
        DigestFor id [ascii "env"] none treeB' (some []) :=
  have h : pruned [ascii "env"] treeB = pruned [ascii "env"] treeB' := by
    simp [pruned, treeB, treeB', ignoreDynamicDirectories, ToLower, toLowerByte, Base, Join, ascii]
  ⟨h, DigestFor_ignores_dynamic id [ascii "env"] none treeB treeB' (some []) h⟩

/-- C3: changing the size of one file that is not beneath an ignored-dynamic
directory changes the digest `DigestFor` returns for the root, for a
collision-free hash function. -/
theorem DigestFor_size_change (H : List Nat → List Nat) (hH : Function.Injective H)
    (folder : Path) (failure : Option IOError) (es es' : List Entry) (collect collect' : Collect)
    (d : List Nat) (hch : SizeChanged folder es es')
    (hd : (DigestFor H folder failure es collect).1 = .ok d) :
    ∃ d', (DigestFor H folder failure es' collect').1 = .ok d' ∧ d' ≠ d := by
  rw [DigestFor_fst] at hd ⊢
  exact digest_sizeChanged H hH hch failure d hd

/-- The size-change theorem on `treeC`, the size of `sub/x` going from 16 to
17, with the identity as hash function. -/
theorem DigestFor_size_change_witness :
    ∃ d d', (DigestFor id [ascii "env"] none (treeC 16) none).1 = .ok d ∧
      (DigestFor id [ascii "env"] none (treeC 17) none).1 = .ok d' ∧ d' ≠ d :=
  have hch : SizeChanged [ascii "env"] (treeC 16) (treeC 17) :=
    SizeChanged.inside [ascii "env"] [] [.file (ascii "a") 1] (ascii "sub") none
      (by simp [ignoreDynamicDirectories, ToLower, toLowerByte, Base, ascii])
      (SizeChanged.here _ [] [] (ascii "x") 16 17 (by decide))
  have hd : (DigestFor id [ascii "env"] none (treeC 16) none).1 =
      .ok (ascii "a -- 1x -- 10") := by
    simp [treeC, DigestFor, digestLoop, sorted, nameLE, nameLess, strLess, Entry.Name, ascii,
      repr, hex, hexDigit, Collect.record, ignoreDynamicDirectories, ToLower, toLowerByte, Base,
      Join]
  match DigestFor_size_change id Function.injective_id [ascii "env"] none (treeC 16) (treeC 17)
    none none _ hch hd with
  | ⟨d', h1, h2⟩ => ⟨_, d', hd, h1, h2⟩

/-- C4, as stated, fails: a directory renamed from `a` to `b`, and a file
renamed from `a -- 1b` to `b -- 1a` next to a file `a -- 1b -- 1a`, leave the
digest unchanged whatever the hash function is: the name of a directory is not
written to the digester, and the records of files are written without a
separator. -/
theorem DigestFor_rename_unchanged :
    Renamed [ascii "env"] (treeE (ascii "a")) (treeE (ascii "b")) ∧
      (∀ H : List Nat → List Nat,
        (DigestFor H [ascii "env"] none (treeE (ascii "a")) none).1 =
            .ok (H (H (ascii "f -- 1"))) ∧
          (DigestFor H [ascii "env"] none (treeE (ascii "b")) none).1 =
            .ok (H (H (ascii "f -- 1")))) ∧
      Renamed [ascii "env"] (treeF (ascii "a -- 1b")) (treeF (ascii "b -- 1a")) ∧
      (∀ H : List Nat → List Nat,
        (DigestFor H [ascii "env"] none (treeF (ascii "a -- 1b")) none).1 =
            .ok (H (ascii "a -- 1b -- 1a -- 1b -- 1a -- 1")) ∧
          (DigestFor H [ascii "env"] none (treeF (ascii "b -- 1a")) none).1 =
            .ok (H (ascii "a -- 1b -- 1a -- 1b -- 1a -- 1"))) := by
  refine ⟨?_, fun H => ⟨?_, ?_⟩, ?_, fun H => ⟨?_, ?_⟩⟩
  · exact Renamed.dir [ascii "env"] [] [] (ascii "a") (ascii "b") none _ (by decide)
      (by simp) (by decide) (by decide)
  · simp [treeE, DigestFor, digestLoop, sorted, nameLE, nameLess, strLess, Entry.Name, ascii,
      repr, hex, hexDigit, Collect.record, ignoreDynamicDirectories, ToLower, toLowerByte, Base,
      Join]
  · simp [treeE, DigestFor, digestLoop, sorted, nameLE, nameLess, strLess, Entry.Name, ascii,
      repr, hex, hexDigit, Collect.record, ignoreDynamicDirectories, ToLower, toLowerByte, Base,
      Join]
  · exact Renamed.file [ascii "env"] [] [.file (ascii "a -- 1b -- 1a") 1] (ascii "a -- 1b")
      (ascii "b -- 1a") 1 (by decide) (by simp [Entry.Name, ascii]) (by decide) (by decide)
  · simp [treeF, DigestFor, digestLoop, sorted, nameLE, nameLess, strLess, Entry.Name, ascii,
      repr, hex, hexDigit, Collect.record]
  · simp [treeF, DigestFor, digestLoop, sorted, nameLE, nameLess, strLess, Entry.Name, ascii,
      repr, hex, hexDigit, Collect.record]

/-- C4, amended: renaming one file that is not beneath an ignored-dynamic
directory to a different name changes the digest `DigestFor` returns for the
root, for a collision-free hash function, when the new name keeps the place of
the file among its siblings in the order of names or has another length. -/
theorem DigestFor_file_rename (H : List Nat → List Nat) (hH : Function.Injective H)
    (folder : Path) (failure : Option IOError) (es es' : List Entry) (collect collect' : Collect)
    (d : List Nat) (hch : FileRenamed folder es es')
    (hd : (DigestFor H folder failure es collect).1 = .ok d) :
    ∃ d', (DigestFor H folder failure es' collect').1 = .ok d' ∧ d' ≠ d := by
  rw [DigestFor_fst] at hd ⊢
  exact digest_fileRenamed H hH hch failure d hd

/-- The file-rename theorem on `treeD`, the file `sub/x` renamed to `sub/y`, with
the identity as hash function. -/
theorem DigestFor_file_rename_witness :
    ∃ d d', (DigestFor id [ascii "env"] none (treeD (ascii "x")) none).1 = .ok d ∧
      (DigestFor id [ascii "env"] none (treeD (ascii "y")) none).1 = .ok d' ∧ d' ≠ d :=
  have hch : FileRenamed [ascii "env"] (treeD (ascii "x")) (treeD (ascii "y")) :=
    FileRenamed.inside [ascii "env"] [] [] (ascii "sub") none
      (by simp [ignoreDynamicDirectories, ToLower, toLowerByte, Base, ascii])
      (FileRenamed.here _ [.file (ascii "m") 5] [] (ascii "x") (ascii "y") 16 (by decide)
        (Or.inl (by simp [SamePlace, Entry.Name, ascii, strLess])))
  have hd : (DigestFor id [ascii "env"] none (treeD (ascii "x")) none).1 =
      .ok (ascii "m -- 5x -- 10") := by
    simp [treeD, DigestFor, digestLoop, sorted, nameLE, nameLess, strLess, Entry.Name, ascii,
      repr, hex, hexDigit, Collect.record, ignoreDynamicDirectories, ToLower, toLowerByte, Base,
      Join]
  match DigestFor_file_rename id Function.injective_id [ascii "env"] none (treeD (ascii "x"))
    (treeD (ascii "y")) none none _ hch hd with
  | ⟨d', h1, h2⟩ => ⟨_, d', hd, h1, h2⟩

/-! ### Version texts -/

theorem isDigit_toNat {c : Char} (h : c.isDigit = true) : 48 ≤ c.toNat ∧ c.toNat ≤ 57 := by
  simp only [Char.isDigit, Bool.and_eq_true, decide_eq_true_eq] at h
  exact ⟨h.1, h.2⟩

theorem isSpace_of_isDigit {c : Char} (h : c.isDigit = true) : isSpace c = false := by
  have := isDigit_toNat h
  simp only [isSpace, Bool.or_eq_false_iff, Bool.and_eq_false_iff, decide_eq_false_iff_not,
    beq_eq_false_iff_ne]
  omega

theorem ne_dot_of_isDigit {c : Char} (h : c.isDigit = true) : c ≠ '.' := by
  rintro rfl
  exact absurd h (by decide)

theorem ne_newline_of_isDigit {c : Char} (h : c.isDigit = true) : c ≠ '\n' := by
  rintro rfl
  exact absurd h (by decide)

theorem TrimSpace_eq (s : List Char) :
    TrimSpace s = (s.dropWhile isSpace).rdropWhile isSpace := rfl

/-- Trimming keeps a core that begins and ends with a character that is not
white space, and what follows it up to the trailing white space. -/
theorem TrimSpace_core (lead core trail : List Char) (hlead : ∀ c ∈ lead, isSpace c = true)
    (hne : core ≠ []) (hfirst : isSpace (core.head hne) = false)
    (hlast : isSpace (core.getLast hne) = false) :
    TrimSpace (lead ++ (core ++ trail)) = core ++ trail.rdropWhile isSpace := by
  have h1 : ∀ t : List Char, (core ++ t).dropWhile isSpace = core ++ t := by
    intro t
    cases core with
    | nil => exact absurd rfl hne
    | cons x r =>
      simp only [List.head_cons] at hfirst
      simp [List.dropWhile_cons, hfirst]
  rw [TrimSpace_eq, List.dropWhile_append_of_pos hlead, h1]
  induction trail using List.reverseRecOn with
  | nil =>
    simp only [List.append_nil, List.rdropWhile_nil]
    rw [List.rdropWhile_eq_self_iff]
    intro _
    simpa using hlast
  | append_singleton t x ih =>
    by_cases hx : isSpace x = true
    · rw [← List.append_assoc, List.rdropWhile_concat_pos _ _ _ hx,
        List.rdropWhile_concat_pos _ _ _ hx, ih]
    · rw [← List.append_assoc, List.rdropWhile_concat_neg _ _ _ hx,
        List.rdropWhile_concat_neg _ _ _ hx, List.append_assoc]

theorem SplitN_two_head (s : List Char) :
    (SplitN '\n' 2 s).getD 0 [] = s.takeWhile (· != '\n') := by
  unfold SplitN
  by_cases h : '\n' ∈ s
  · simp [h]
  · rw [if_neg h]
    simp only [List.getD_cons_zero]
    symm
    rw [List.takeWhile_eq_self_iff]
    intro x hx
    simp only [bne_iff_ne, ne_eq]
    rintro rfl
    exact h hx

theorem SplitN_two_length (s : List Char) : (SplitN '\n' 2 s).length > 0 := by
  unfold SplitN
  split_ifs <;> simp

theorem takeWhile_until (sep : Char) (a rest : List Char) (ha : sep ∉ a) :
    (a ++ sep :: rest).takeWhile (· != sep) = a := by
  rw [List.takeWhile_append_of_pos]
  · simp
  · intro x hx
    simp only [bne_iff_ne, ne_eq]
    rintro rfl
    exact ha hx

theorem dropWhile_until (sep : Char) (a rest : List Char) (ha : sep ∉ a) :
    (a ++ sep :: rest).dropWhile (· != sep) = sep :: rest := by
  rw [List.dropWhile_append_of_pos]
  · simp
  · intro x hx
    simp only [bne_iff_ne, ne_eq]
    rintro rfl
    exact ha hx

theorem SplitN_three_parts (A B C : List Char) (hA : '.' ∉ A) (hB : '.' ∉ B) (hC : '.' ∉ C) :
    SplitN '.' 4 (A ++ '.' :: (B ++ '.' :: C)) = [A, B, C] := by
  have e1 : SplitN '.' 2 C = [C] := by
    unfold SplitN
    rw [if_neg hC]
  have e2 : SplitN '.' 3 (B ++ '.' :: C) = [B, C] := by
    unfold SplitN
    rw [if_pos (by simp), takeWhile_until _ _ _ hB, dropWhile_until _ _ _ hB]
    simp [e1]
  unfold SplitN
  rw [if_pos (by simp), takeWhile_until _ _ _ hA, dropWhile_until _ _ _ hA]
  simp [e2]

theorem le_foldl_decimal (s : List Char) :
    ∀ n : Nat, n ≤ s.foldl (fun n c => n * 10 + digitValue c) n := by
  induction s with
  | nil => intro n; exact Nat.le_refl n
  | cons c s ih =>
    intro n
    simp only [List.foldl_cons]
    have := ih (n * 10 + digitValue c)
    omega

theorem ParseUint_foldl (s : List Char) (hs : ∀ c ∈ s, c.isDigit = true) :
    ∀ n : Nat, s.foldl (fun n c => n * 10 + digitValue c) n < 2 ^ 64 →
      s.foldl (fun acc c =>
        match acc with
        | none => none
        | some n =>
          if c.isDigit then
            if n * 10 + digitValue c < 2 ^ 64 then some (n * 10 + digitValue c) else none
          else none) (some n) = some (s.foldl (fun n c => n * 10 + digitValue c) n) := by
  induction s with
  | nil => intro n _; rfl
  | cons c s ih =>
    intro n hn
    simp only [List.foldl_cons] at hn ⊢
    have hc := hs c (List.mem_cons_self _ _)
    have hle := le_foldl_decimal s (n * 10 + digitValue c)
    rw [if_pos hc, if_pos (by omega)]
    exact ih (fun x hx => hs x (List.mem_cons_of_mem _ hx)) _ hn

/-- A non-empty text of decimal digits whose value fits 64 bits parses to that
value. -/
theorem ParseUint_decimal (s : List Char) (hne : s ≠ []) (hs : ∀ c ∈ s, c.isDigit = true)
    (hfit : decimal s < 2 ^ 64) : ParseUint s = some (decimal s) := by
  unfold ParseUint
  rw [if_neg hne]
  exact ParseUint_foldl s hs 0 hfit

theorem mem_of_prefix_before_newline (rest : List Char)
    (hrest : rest = [] ∨ rest.head? = some '\n') :
    ∀ (ws W : List Char), W <+: ws ++ rest → (∀ c ∈ W, c ≠ '\n') → ∀ c ∈ W, c ∈ ws
  | [], W, hp, hW, c, hc => by
    simp only [List.nil_append] at hp
    rcases hrest with rfl | h
    · rw [List.prefix_nil.1 hp] at hc
      cases hc
    · cases rest with
      | nil => simp at h
      | cons r rs =>
        simp only [List.head?_cons, Option.some.injEq] at h
        subst h
        cases W with
        | nil => cases hc
        | cons w ws' =>
          have := (List.cons_prefix_cons.1 hp).1
          exact absurd this (hW w (List.mem_cons_self _ _))
  | x :: ws, W, hp, hW, c, hc => by
    cases W with
    | nil => cases hc
    | cons w W' =>
      simp only [List.cons_append] at hp
      obtain ⟨rfl, hp'⟩ := List.cons_prefix_cons.1 hp
      rcases List.mem_cons.1 hc with rfl | hc'
      · exact List.mem_cons_self _ _
      · exact List.mem_cons_of_mem _
          (mem_of_prefix_before_newline rest hrest ws W' hp'
            (fun y hy => hW y (List.mem_cons_of_mem _ hy)) c hc')

/-- The first line, trimmed, of a text that starts (after white space) with a
core free of white space and line breaks, followed by white space and then
either nothing or a line break. -/
theorem first_line_core (lead core ws rest : List Char) (hlead : ∀ c ∈ lead, isSpace c = true)
    (hne : core ≠ []) (hcore : ∀ c ∈ core, isSpace c = false ∧ c ≠ '\n')
    (hws : ∀ c ∈ ws, isSpace c = true) (hrest : rest = [] ∨ rest.head? = some '\n') :
    TrimSpace ((SplitN '\n' 2 (TrimSpace (lead ++ (core ++ (ws ++ rest))))).getD 0 []) = core := by
  have hfirst : isSpace (core.head hne) = false := (hcore _ (List.head_mem hne)).1
  have hlast : isSpace (core.getLast hne) = false := (hcore _ (List.getLast_mem hne)).1
  rw [TrimSpace_core lead core _ hlead hne hfirst hlast, SplitN_two_head,
    List.takeWhile_append_of_pos (fun c hc => by simpa using (hcore c hc).2)]
  have hW : ∀ c ∈ ((ws ++ rest).rdropWhile isSpace).takeWhile (· != '\n'), isSpace c = true := by
    intro c hc
    refine hws c (mem_of_prefix_before_newline rest hrest ws _
      ((List.takeWhile_prefix _).trans (List.rdropWhile_prefix _ _)) ?_ c hc)
    intro y hy
    simpa using List.mem_takeWhile_imp hy
  have := TrimSpace_core [] core (((ws ++ rest).rdropWhile isSpace).takeWhile (· != '\n'))
    (fun _ h => by cases h) hne hfirst hlast
  simp only [List.nil_append] at this
  rw [this, List.rdropWhile_eq_nil_iff.2 hW, List.append_nil]

theorem asVersion_core (lead A B C ws rest : List Char)
    (hlead : ∀ c ∈ lead, isSpace c = true)
    (hA : A ≠ [] ∧ ∀ c ∈ A, c.isDigit = true) (hB : B ≠ [] ∧ ∀ c ∈ B, c.isDigit = true)
    (hC : C ≠ [] ∧ ∀ c ∈ C, c.isDigit = true)
    (hws : ∀ c ∈ ws, isSpace c = true) (hrest : rest = [] ∨ rest.head? = some '\n')
    (hfit : decimal A * 1000000 + decimal B * 1000 + decimal C < 2 ^ 64) :
    asVersion (String.mk (lead ++ (A ++ '.' :: (B ++ '.' :: C) ++ (ws ++ rest)))) =
        (decimal A * 1000000 + decimal B * 1000 + decimal C,
          String.mk (A ++ '.' :: (B ++ '.' :: C))) := by
  have hne : A ++ '.' :: (B ++ '.' :: C) ≠ [] := by
    cases A <;> simp
  have hcore : ∀ c ∈ A ++ '.' :: (B ++ '.' :: C), isSpace c = false ∧ c ≠ '\n' := by
    intro c hc
    simp only [List.mem_append, List.mem_cons] at hc
    rcases hc with h | rfl | h | rfl | h
    · exact ⟨isSpace_of_isDigit (hA.2 c h), ne_newline_of_isDigit (hA.2 c h)⟩
    · exact ⟨by decide, by decide⟩
    · exact ⟨isSpace_of_isDigit (hB.2 c h), ne_newline_of_isDigit (hB.2 c h)⟩
    · exact ⟨by decide, by decide⟩
    · exact ⟨isSpace_of_isDigit (hC.2 c h), ne_newline_of_isDigit (hC.2 c h)⟩
  have hline := first_line_core lead _ ws rest hlead hne hcore hws hrest
  have hparts := SplitN_three_parts A B C (fun h => ne_dot_of_isDigit (hA.2 _ h) rfl)
    (fun h => ne_dot_of_isDigit (hB.2 _ h) rfl) (fun h => ne_dot_of_isDigit (hC.2 _ h) rfl)
  have hpA := ParseUint_decimal A hA.1 hA.2 (by omega)
  have hpB := ParseUint_decimal B hB.1 hB.2 (by omega)
  have hpC := ParseUint_decimal C hC.1 hC.2 (by omega)
  have hloop : versionLoop [A, B, C] 3 [(0, 1000000), (1, 1000), (2, 1)] 0 =
      decimal A * 1000000 + decimal B * 1000 + decimal C := by
    simp only [versionLoop, List.getD_cons_zero, List.getD_cons_succ, hpA, hpB, hpC]
    simp only [Nat.reduceLeDiff, if_false, Nat.zero_add]
    rw [Nat.mod_eq_of_lt (by omega), Nat.mod_eq_of_lt (by omega), Nat.mod_eq_of_lt (by omega)]
    ring
  have hlist : ∀ l : List Char, (String.mk l).toList = l := fun _ => rfl
  unfold asVersion
  simp only [hlist, SplitN_two_length, if_true, hline, hparts]
  exact Prod.ext hloop rfl

/-- C5: a text whose first line, trimmed, is `a.b.c` with decimal numbers encodes
to `a*1000000 + b*1000 + c` (no 64-bit overflow), returned with that line;
later lines are ignored.  In particular `4.12.0` encodes to 4012000 and `0.15.3`
to 15003, which `HasMicroMamba` does not accept. -/
theorem asVersion_three_numbers (lead A B C ws rest : List Char)
    (hlead : ∀ c ∈ lead, isSpace c = true)
    (hA : A ≠ [] ∧ ∀ c ∈ A, c.isDigit = true) (hB : B ≠ [] ∧ ∀ c ∈ B, c.isDigit = true)
    (hC : C ≠ [] ∧ ∀ c ∈ C, c.isDigit = true)
    (hws : ∀ c ∈ ws, isSpace c = true) (hrest : rest = [] ∨ rest.head? = some '\n')
    (hfit : decimal A * 1000000 + decimal B * 1000 + decimal C < 2 ^ 64) :
    asVersion (String.mk (lead ++ (A ++ '.' :: (B ++ '.' :: C) ++ (ws ++ rest)))) =
        (decimal A * 1000000 + decimal B * 1000 + decimal C,
          String.mk (A ++ '.' :: (B ++ '.' :: C))) ∧
      asVersion "4.12.0\nextra text" = (4012000, "4.12.0") ∧
      asVersion "0.15.3" = (15003, "0.15.3") ∧
      HasMicroMamba true (.ok "0.15.3") = false :=
  ⟨asVersion_core lead A B C ws rest hlead hA hB hC hws hrest hfit, by decide, by decide,
    by decide⟩

/-- The version theorem on a text with white space around its first line. -/
theorem asVersion_three_numbers_witness :
    asVersion " 4.12.0 \nextra text" = (4012000, "4.12.0") :=
  (asVersion_three_numbers [' '] ['4'] ['1', '2'] ['0'] [' '] "\nextra text".toList
    (by decide) (by decide) (by decide) (by decide) (by decide) (by decide) (by decide)).1

/-! ### Environment assembly -/

theorem lookup_append (a b : List String) (key : String) :
    lookup (a ++ b) key = (lookup b key).or (lookup a key) := by
  unfold lookup
  rw [List.reverse_append, List.find?_append]
  cases List.find? (fun entry => keyOf entry == some key) b.reverse <;> rfl

theorem lookup_isSome_of_mem {b : List String} {key : String}
    (h : ∃ e ∈ b, keyOf e = some key) : (lookup b key).isSome = true := by
  obtain ⟨e, he, hk⟩ := h
  unfold lookup
  have : (List.find? (fun entry => keyOf entry == some key) b.reverse).isSome = true :=
    List.find?_isSome.2 ⟨e, List.mem_reverse.2 he, by simp [hk]⟩
  cases hf : List.find? (fun entry => keyOf entry == some key) b.reverse with
  | none => rw [hf] at this; cases this
  | some v => rfl

theorem lookup_eq_none_of_not_mem {b : List String} {key : String}
    (h : ∀ e ∈ b, keyOf e ≠ some key) : lookup b key = none := by
  unfold lookup
  rw [Option.map_eq_none', List.find?_eq_none]
  intro e he
  simpa using h e (List.mem_reverse.1 he)

theorem fixedEntries_keys (host : Host) (location : String) (searchPath : pathlib.PathParts) :
    (fixedEntries host location searchPath).map keyOf = fixedKeys.map some := by
  simp [fixedEntries, fixedKeys, keyOf, pathlib.AsEnvironmental]

theorem EnvironmentExtensionFor_eq (host : Host) (location : String) :
    EnvironmentExtensionFor host location =
      (match findPython host (FindPath host location) with
        | some python => ["PYTHON_EXE=" ++ python]
        | none => []) ++ fixedEntries host location (FindPath host location) ++
        host.LoadActivationEnvironment location := by
  unfold EnvironmentExtensionFor
  cases h : findPython host (FindPath host location) <;> simp [h]

theorem lookup_fixed (host : Host) (location : String) (searchPath : pathlib.PathParts) :
    lookup (fixedEntries host location searchPath) "PYTHONHOME" = some "" ∧
      lookup (fixedEntries host location searchPath) "PYTHONSTARTUP" = some "" ∧
      lookup (fixedEntries host location searchPath) "PYTHONEXECUTABLE" = some "" ∧
      lookup (fixedEntries host location searchPath) "PYTHONNOUSERSITE" = some "1" := by
  simp [lookup, fixedEntries, keyOf, valueOf, pathlib.AsEnvironmental]

/-- The value the assembled environment gives to a key of the fixed block that
the activation variables do not define. -/
theorem lookup_EnvironmentFor_fixed (host : Host) (location key value : String)
    (hfixed : ∀ searchPath, lookup (fixedEntries host location searchPath) key = some value)
    (hact : ∀ e ∈ host.LoadActivationEnvironment location, keyOf e ≠ some key) :
    lookup (EnvironmentFor host location) key = some value := by
  unfold EnvironmentFor
  rw [EnvironmentExtensionFor_eq, lookup_append, lookup_append, lookup_append,
    lookup_eq_none_of_not_mem hact, hfixed]
  rfl

/-- C9: `EnvironmentFor` is the inherited environment followed by the extension,
so a last-writer-wins lookup of a key of the extension finds the value the
extension gives it; in particular `PYTHONHOME`, `PYTHONSTARTUP` and
`PYTHONEXECUTABLE` resolve to the empty text and `PYTHONNOUSERSITE` to `1`
whatever the host environment contains, unless the activation variables define
them. -/
theorem EnvironmentFor_extension_wins (host : Host) (location key : String)
    (hkey : ∃ e ∈ EnvironmentExtensionFor host location, keyOf e = some key) :
    EnvironmentFor host location = host.Environ ++ EnvironmentExtensionFor host location ∧
      lookup (EnvironmentFor host location) key =
        lookup (EnvironmentExtensionFor host location) key ∧
      ((∀ e ∈ host.LoadActivationEnvironment location, keyOf e ≠ some "PYTHONHOME") →
        lookup (EnvironmentFor host location) "PYTHONHOME" = some "") ∧
      ((∀ e ∈ host.LoadActivationEnvironment location, keyOf e ≠ some "PYTHONSTARTUP") →
        lookup (EnvironmentFor host location) "PYTHONSTARTUP" = some "") ∧
      ((∀ e ∈ host.LoadActivationEnvironment location, keyOf e ≠ some "PYTHONEXECUTABLE") →
        lookup (EnvironmentFor host location) "PYTHONEXECUTABLE" = some "") ∧
      ((∀ e ∈ host.LoadActivationEnvironment location, keyOf e ≠ some "PYTHONNOUSERSITE") →
        lookup (EnvironmentFor host location) "PYTHONNOUSERSITE" = some "1") := by
  refine ⟨rfl, ?_, ?_, ?_, ?_, ?_⟩
  · unfold EnvironmentFor
    rw [lookup_append]
    have := lookup_isSome_of_mem hkey
    cases h : lookup (EnvironmentExtensionFor host location) key with
    | none => rw [h] at this; cases this
    | some v => rfl
  · exact lookup_EnvironmentFor_fixed host location _ _ (fun p => (lookup_fixed host location p).1)
  · exact lookup_EnvironmentFor_fixed host location _ _
      (fun p => (lookup_fixed host location p).2.1)
  · exact lookup_EnvironmentFor_fixed host location _ _
      (fun p => (lookup_fixed host location p).2.2.1)
  · exact lookup_EnvironmentFor_fixed host location _ _
      (fun p => (lookup_fixed host location p).2.2.2)

/-- The precedence theorem on `exampleHost`, whose process environment sets
`PYTHONHOME` and `PYTHONNOUSERSITE` and whose activation sets `CONDA_SHLVL`. -/
theorem EnvironmentFor_extension_wins_witness :
    lookup (EnvironmentFor exampleHost "/env") "CONDA_SHLVL" = some "2" ∧
      lookup (EnvironmentFor exampleHost "/env") "PYTHONHOME" = some "" ∧
      lookup (EnvironmentFor exampleHost "/env") "PYTHONNOUSERSITE" = some "1" :=
  have h := EnvironmentFor_extension_wins exampleHost "/env" "CONDA_SHLVL"
    ⟨"CONDA_SHLVL=2", by decide, by decide⟩
  ⟨h.2.1.trans (by decide), h.2.2.1 (by decide), h.2.2.2.2.2 (by decide)⟩

/-- C10, as stated, fails: on `exampleHost` the list is `exampleHead` followed by
the activation variables, and in `exampleHead` the isolation variables `TEMP`
and `TMP` come after the identity and tracking variables. -/
theorem EnvironmentExtensionFor_not_layered :
    EnvironmentExtensionFor exampleHost "/env" =
        exampleHead ++ exampleHost.LoadActivationEnvironment "/env" ∧
      layered exampleHead = false ∧
      exampleHead.indexOf "RCC_TRACKING_ALLOWED=true" = 14 ∧
      exampleHead.indexOf "TEMP=/home/u/.robocorp/temp/1" = 15 := by
  decide

/-- C10, amended: the list is the optional interpreter variable, then the
entries with the keys `fixedKeys` in that order (the isolation variables up to
`ROBOCORP_HOME`, the three identity and tracking variables, `TEMP` and `TMP`,
and last the single `PATH` entry built from the resolved search path), then
the activation variables, unmodified and in their order, as the final
suffix. -/
theorem EnvironmentExtensionFor_layers (host : Host) (location : String) :
    ∃ interpreter fixed,
      EnvironmentExtensionFor host location =
        interpreter ++ fixed ++ host.LoadActivationEnvironment location ∧
      (interpreter = [] ∨ ∃ python, interpreter = ["PYTHON_EXE=" ++ python]) ∧
      fixed.map keyOf = fixedKeys.map some ∧
      fixed.getLast? =
        some (pathlib.AsEnvironmental host.listSeparator (FindPath host location) "PATH") := by
  refine ⟨_, fixedEntries host location (FindPath host location),
    EnvironmentExtensionFor_eq host location, ?_, fixedEntries_keys host location _, ?_⟩
  · cases findPython host (FindPath host location) with
    | none => exact Or.inl rfl
    | some python => exact Or.inr ⟨python, rfl⟩
  · simp [fixedEntries]

/-! ### The later claims on the digest and the environment -/

/-- C19: the bytes written to the hash do not determine the listing.  The
directory with files `a` of size 1 and `b` of size 2 and the directory with the
single file `a -- 1b` of size 2 have different (name, size) pairs, yet for both
the loop writes the bytes `a -- 1b -- 2`, so `DigestFor` has the same outcome
for them, whatever the hash function, folder and collect map. -/
theorem DigestFor_stream_collision (H : List Nat → List Nat) (folder : Path)
    (collect : Collect) :
    stream H folder (sorted treeG) = .ok (ascii "a -- 1b -- 2") ∧
      stream H folder (sorted treeG') = .ok (ascii "a -- 1b -- 2") ∧
      DigestFor H folder none treeG collect = DigestFor H folder none treeG' collect ∧
      (DigestFor H folder none treeG collect).1 = .ok (H (ascii "a -- 1b -- 2")) ∧
      treeG.length ≠ treeG'.length := by
  refine ⟨?_, ?_, ?_, ?_, by decide⟩
  · simp [stream, treeG, digestLoop, sorted, nameLE, nameLess, strLess, Entry.Name, ascii, repr,
      hex, hexDigit]
  · simp [stream, treeG', digestLoop, sorted, nameLE, nameLess, strLess, Entry.Name, ascii, repr,
      hex, hexDigit]
  · simp [treeG, treeG', DigestFor, digestLoop, sorted, nameLE, nameLess, strLess, Entry.Name,
      ascii, repr, hex, hexDigit]
  · simp [treeG, DigestFor, digestLoop, sorted, nameLE, nameLess, strLess, Entry.Name,
      ascii, repr, hex, hexDigit]

theorem fixedEntries_no_interpreter (host : Host) (location : String)
    (searchPath : pathlib.PathParts) :
    ∀ e ∈ fixedEntries host location searchPath, keyOf e ≠ some "PYTHON_EXE" := by
  intro e he
  have hk : keyOf e ∈ (fixedEntries host location searchPath).map keyOf := List.mem_map_of_mem _ he
  rw [fixedEntries_keys] at hk
  intro h
  rw [h] at hk
  revert hk
  decide

/-- C11: the interpreter is looked up as `python3` first and as `python` only
when `python3` is found nowhere in the search path.  The list starts with
`PYTHON_EXE=` and the match exactly when one of them is found; otherwise no
`PYTHON_EXE` entry is emitted, and in all cases the remaining entries are the
same.  On `pythonFirstHost` the `python3` of the second directory wins over the
`python` of the first. -/
theorem EnvironmentExtensionFor_interpreter (host : Host) (location : String) :
    EnvironmentExtensionFor host location =
        (match pathlib.Which host.separator host.isFile (FindPath host location) "python3"
            host.FileExtensions with
          | some python3 => ["PYTHON_EXE=" ++ python3]
          | none =>
            match pathlib.Which host.separator host.isFile (FindPath host location) "python"
                host.FileExtensions with
            | some python => ["PYTHON_EXE=" ++ python]
            | none => []) ++
          (fixedEntries host location (FindPath host location) ++
            host.LoadActivationEnvironment location) ∧
      (∀ e ∈ fixedEntries host location (FindPath host location),
        keyOf e ≠ some "PYTHON_EXE") ∧
      (fixedEntries host location (FindPath host location)).head? =
        some "CONDA_DEFAULT_ENV=rcc" ∧
      pathlib.Which '/' pythonFirstHost.isFile (FindPath pythonFirstHost "/env") "python"
        pythonFirstHost.FileExtensions = some "/env/Scripts/python" ∧
      (EnvironmentExtensionFor pythonFirstHost "/env").head? =
        some "PYTHON_EXE=/env/bin/python3" := by
  refine ⟨?_, fixedEntries_no_interpreter host location _, rfl, by decide, by decide⟩
  rw [EnvironmentExtensionFor_eq, List.append_assoc]
  congr 1
  unfold findPython
  cases pathlib.Which host.separator host.isFile (FindPath host location) "python3"
      host.FileExtensions with
  | some p => rfl
  | none =>
    cases pathlib.Which host.separator host.isFile (FindPath host location) "python"
      host.FileExtensions <;> rfl

/-! ### Version order and totality of `asVersion` -/

/-- C17, as stated, fails: `0.15.1000` is below 0.16.0 in version order, yet it
encodes to 16000 and is accepted; and the version with major number 2^58 is
above 0.16.0, yet its encoding wraps around to 0 and it is rejected. -/
theorem HasMicroMamba_not_version_order :
    asVersion "0.15.1000" = (16000, "0.15.1000") ∧
      HasMicroMamba true (.ok "0.15.1000") = true ∧
      versionAtLeast (0, 15, 1000) (0, 16, 0) = false ∧
      asVersion "288230376151711744.0.0" = (0, "288230376151711744.0.0") ∧
      HasMicroMamba true (.ok "288230376151711744.0.0") = false ∧
      versionAtLeast (288230376151711744, 0, 0) (0, 16, 0) = true := by
  decide

/-- C17, amended: for a text whose first line, trimmed, is `a.b.c` with decimal
numbers, `c` below 1000 and no 64-bit overflow in the encoding, `HasMicroMamba`
(the binary being a file) accepts exactly when `(a, b, c)` is at least
`(0, 16, 0)` in version order. -/
theorem HasMicroMamba_version_order (lead A B C ws rest : List Char)
    (hlead : ∀ c ∈ lead, isSpace c = true)
    (hA : A ≠ [] ∧ ∀ c ∈ A, c.isDigit = true) (hB : B ≠ [] ∧ ∀ c ∈ B, c.isDigit = true)
    (hC : C ≠ [] ∧ ∀ c ∈ C, c.isDigit = true)
    (hws : ∀ c ∈ ws, isSpace c = true) (hrest : rest = [] ∨ rest.head? = some '\n')
    (hfit : decimal A * 1000000 + decimal B * 1000 + decimal C < 2 ^ 64)
    (hpatch : decimal C < 1000) :
    HasMicroMamba true
        (.ok (String.mk (lead ++ (A ++ '.' :: (B ++ '.' :: C) ++ (ws ++ rest))))) =
      versionAtLeast (decimal A, decimal B, decimal C) (0, 16, 0) := by
  have h1 := asVersion_core lead A B C ws rest hlead hA hB hC hws hrest hfit
  have h2 := asVersion_core [] A B C [] [] (fun _ h => by cases h) hA hB hC
    (fun _ h => by cases h) (Or.inl rfl) hfit
  simp only [List.nil_append, List.append_nil] at h2
  simp only [HasMicroMamba, MicromambaVersion, h1, h2, Bool.not_true, goodEnough,
    versionAtLeast]
  rw [Bool.eq_iff_iff]
  simp only [Bool.false_eq_true, if_false, decide_eq_true_eq, Bool.or_eq_true,
    Bool.and_eq_true, beq_iff_eq]
  omega

/-- The version-order theorem on the two texts `0.16.0` and `0.15.999`. -/
theorem HasMicroMamba_version_order_witness :
    HasMicroMamba true (.ok "0.16.0\n") = true ∧ HasMicroMamba true (.ok "0.15.999") = false :=
  ⟨(HasMicroMamba_version_order [] ['0'] ['1', '6'] ['0'] [] ['\n'] (by decide) (by decide)
      (by decide) (by decide) (by decide) (by decide) (by decide) (by decide)).trans (by decide),
    by decide⟩

theorem versionLoop_eq (parts : List (List Char)) :
    ∀ (multipliers : List Nat) (k v : Nat), v < 2 ^ 64 →
      versionLoop parts parts.length (List.enumFrom k multipliers) v =
        (v + leadingSum multipliers (parts.drop k)) % 2 ^ 64
  | [], k, v, hv => by
    cases h : parts.drop k <;> simp [List.enumFrom, versionLoop, leadingSum] <;> omega
  | m :: ms, k, v, hv => by
    simp only [List.enumFrom, versionLoop]
    by_cases hk : parts.length ≤ k
    · rw [if_pos hk, List.drop_of_length_le hk]
      simp only [leadingSum, Nat.add_zero]
      omega
    · rw [if_neg hk]
      have hlt : k < parts.length := Nat.lt_of_not_le hk
      rw [List.drop_eq_getElem_cons hlt, List.getD_eq_getElem _ _ hlt]
      simp only [leadingSum]
      cases hp : ParseUint parts[k] with
      | none =>
        simp only [Nat.add_zero]
        omega
      | some value =>
        simp only []
        rw [versionLoop_eq parts ms (k + 1) _ (Nat.mod_lt _ (by norm_num))]
        omega

/-- The result of `asVersion` on every text. -/
theorem asVersion_eq (text : String) :
    asVersion text =
      (leadingSum [1000000, 1000, 1] (SplitN '.' 4 (firstLine text.toList)) % 2 ^ 64,
        String.mk (firstLine text.toList)) := by
  unfold asVersion firstLine
  simp only [SplitN_two_length, if_true, SplitN_two_head, List.enum]
  rw [versionLoop_eq _ _ 0 0 (by norm_num)]
  simp

/-- C20, as stated, fails: the major number 18446744073710 gives the sum
18446744073710000000, which does not fit 64 bits, and `asVersion` returns
448384; and the component 99999999999999999999 is a decimal number, yet the
sum stops before it. -/
theorem asVersion_sum_wraps :
    asVersion "18446744073710.0.0" = (448384, "18446744073710.0.0") ∧
      leadingSum [1000000, 1000, 1] (SplitN '.' 4 "18446744073710.0.0".toList) =
        18446744073710000000 ∧
      asVersion "1.99999999999999999999.3" = (1000000, "1.99999999999999999999.3") := by
  decide

/-- C20, amended: `asVersion` is total; for every text it returns the trimmed
first line and, modulo 2^64, the sum of multiplier times value over the
leading components only, stopping at the first of the at most three components
(split on `.`) that is missing or that `ParseUint` rejects (not a text of
decimal digits with a value below 2^64).  An empty or non-numeric first line
encodes to 0, `1.2.x` to 1002000, and `1.2.3.4` to 1002003. -/
theorem asVersion_total (text : String) :
    asVersion text =
        (leadingSum [1000000, 1000, 1] (SplitN '.' 4 (firstLine text.toList)) % 2 ^ 64,
          String.mk (firstLine text.toList)) ∧
      asVersion "" = (0, "") ∧
      asVersion "micromamba" = (0, "micromamba") ∧
      asVersion "1.2.x" = (1002000, "1.2.x") ∧
      asVersion "1.2.3.4" = (1002003, "1.2.3.4") :=
  ⟨asVersion_eq text, by decide, by decide, by decide, by decide⟩

/-! ### The search path of an environment -/

theorem prepend_fold_extends :
    ∀ (l r : List String),
      r <+: l.foldl (fun result entry => if entry ∈ result then result else result ++ [entry]) r
  | [], r => List.prefix_refl r
  | x :: l, r => by
    simp only [List.foldl_cons]
    by_cases hx : x ∈ r
    · rw [if_pos hx]; exact prepend_fold_extends l r
    · rw [if_neg hx]
      exact (List.prefix_append r [x]).trans (prepend_fold_extends l (r ++ [x]))

theorem prepend_fold_nodup :
    ∀ (l r : List String), r.Nodup →
      (l.foldl (fun result entry => if entry ∈ result then result else result ++ [entry]) r).Nodup
  | [], _, hr => hr
  | x :: l, r, hr => by
    simp only [List.foldl_cons]
    by_cases hx : x ∈ r
    · rw [if_pos hx]; exact prepend_fold_nodup l r hr
    · rw [if_neg hx]
      refine prepend_fold_nodup l (r ++ [x]) ?_
      rw [List.nodup_append]
      exact ⟨hr, List.nodup_singleton x, by
        intro a ha hax
        rw [List.mem_singleton.1 hax] at ha
        exact hx ha⟩

theorem prepend_fold_mem :
    ∀ (l r : List String) (a : String),
      a ∈ l.foldl (fun result entry => if entry ∈ result then result else result ++ [entry]) r ↔
        a ∈ r ∨ a ∈ l
  | [], r, a => by simp
  | x :: l, r, a => by
    simp only [List.foldl_cons]
    by_cases hx : x ∈ r
    · rw [if_pos hx, prepend_fold_mem l r a]
      constructor
      · rintro (h | h)
        · exact Or.inl h
        · exact Or.inr (List.mem_cons_of_mem _ h)
      · rintro (h | h)
        · exact Or.inl h
        · rcases List.mem_cons.1 h with rfl | h
          · exact Or.inl hx
          · exact Or.inr h
    · rw [if_neg hx, prepend_fold_mem l (r ++ [x]) a]
      simp only [List.mem_append, List.mem_singleton, List.mem_cons]
      tauto

theorem prepend_fold_fresh :
    ∀ (l r : List String), l.Nodup → (∀ x ∈ l, x ∉ r) →
      l.foldl (fun result entry => if entry ∈ result then result else result ++ [entry]) r =
        r ++ l
  | [], r, _, _ => by simp
  | x :: l, r, hl, hr => by
    simp only [List.foldl_cons]
    rw [if_neg (hr x (List.mem_cons_self _ _)),
      prepend_fold_fresh l (r ++ [x]) (List.nodup_cons.1 hl).2]
    · simp
    · intro y hy hmem
      rcases List.mem_append.1 hmem with h | h
      · exact hr y (List.mem_cons_of_mem _ hy) h
      · rw [List.mem_singleton.1 h] at hy
        exact (List.nodup_cons.1 hl).1 hy

theorem Remove_mem (separator : Char) (it : pathlib.PathParts) (names : List String)
    (a : String) :
    a ∈ pathlib.Remove separator it names ↔
      a ∈ it ∧ pathlib.baseName separator a ∉ names := by
  simp [pathlib.Remove]

/-- C18: `FindPath` is the system path without the entries whose base name is
`python` or `conda`, with the directories of the environment prepended.  It
has no duplicates; it starts with the directories of the environment, in their
order (each once), whatever their base names; what follows are exactly the
surviving entries of the system path that are not among them.  On
`pythonNamedHost` the environment folder named `python` is kept and the
`/opt/python` of the system is removed. -/
theorem FindPath_layout (host : Host) (environment : String) :
    FindPath host environment =
        pathlib.Prepend (pathlib.Remove host.separator host.TargetPath ["python", "conda"])
          (host.CondaPaths environment) ∧
      (FindPath host environment).Nodup ∧
      (∃ rest, FindPath host environment =
          pathlib.Prepend [] (host.CondaPaths environment) ++ rest ∧
        ∀ x, x ∈ rest ↔
          (x ∈ host.TargetPath ∧ pathlib.baseName host.separator x ∉ ["python", "conda"]) ∧
            x ∉ host.CondaPaths environment) ∧
      (∀ x, x ∈ pathlib.Prepend [] (host.CondaPaths environment) ↔
        x ∈ host.CondaPaths environment) ∧
      (pathlib.Prepend [] (host.CondaPaths environment)).Nodup ∧
      ((host.CondaPaths environment).Nodup →
        pathlib.Prepend [] (host.CondaPaths environment) = host.CondaPaths environment) ∧
      FindPath pythonNamedHost "/envs/python" =
        ["/envs/python", "/envs/python/bin", "/usr/bin"] := by
  have hnodup : (FindPath host environment).Nodup :=
    prepend_fold_nodup _ [] List.nodup_nil
  have hown : ∀ x, x ∈ pathlib.Prepend [] (host.CondaPaths environment) ↔
      x ∈ host.CondaPaths environment := by
    intro x
    unfold pathlib.Prepend
    rw [prepend_fold_mem]
    simp
  refine ⟨rfl, hnodup, ?_, hown, prepend_fold_nodup _ [] List.nodup_nil, ?_, by decide⟩
  · have hpre : pathlib.Prepend [] (host.CondaPaths environment) <+:
        FindPath host environment := by
      unfold FindPath pathlib.Prepend
      simp only [List.append_nil]
      rw [List.foldl_append]
      exact prepend_fold_extends _ _
    obtain ⟨rest, hrest⟩ := hpre
    refine ⟨rest, hrest.symm, ?_⟩
    intro x
    have hmem : x ∈ FindPath host environment ↔
        x ∈ host.CondaPaths environment ∨
          (x ∈ host.TargetPath ∧ pathlib.baseName host.separator x ∉ ["python", "conda"]) := by
      unfold FindPath pathlib.Prepend
      rw [prepend_fold_mem]
      simp only [List.not_mem_nil, false_or, List.mem_append, Remove_mem, ignoredPaths]
    have hdis : ∀ y, y ∈ rest → y ∉ pathlib.Prepend [] (host.CondaPaths environment) := by
      intro y hy hyo
      rw [← hrest] at hnodup
      exact (List.nodup_append.1 hnodup).2.2 hyo hy
    constructor
    · intro hx
      have hx' : x ∈ FindPath host environment := by
        rw [← hrest]; exact List.mem_append_right _ hx
      have hno : x ∉ host.CondaPaths environment := fun h => hdis x hx ((hown x).2 h)
      rcases hmem.1 hx' with h | h
      · exact absurd h hno
      · exact ⟨h, hno⟩
    · rintro ⟨h, hno⟩
      have hx' : x ∈ FindPath host environment := hmem.2 (Or.inr h)
      rw [← hrest] at hx'
      rcases List.mem_append.1 hx' with h' | h'
      · exact absurd ((hown x).1 h') hno
      · exact h'
  · intro hnd
    unfold pathlib.Prepend
    rw [List.append_nil, prepend_fold_fresh _ [] hnd (fun _ _ h => by cases h)]
    simp

/-! ### Failures of `DigestFor` -/

theorem firstFailure_some (folder : Path) (err : IOError) (es : List Entry) :
    firstFailure folder (some err) es = some err := by
  rw [firstFailure]

theorem firstFailure_none (folder : Path) (es : List Entry) :
    firstFailure folder none es = firstFailureIn folder (sorted es) := by
  rw [firstFailure]

theorem firstFailureIn_nil (folder : Path) : firstFailureIn folder [] = none := by
  rw [firstFailureIn]

theorem firstFailureIn_file (folder : Path) (n : GoString) (s : Nat) (rest : List Entry) :
    firstFailureIn folder (.file n s :: rest) = firstFailureIn folder rest := by
  rw [firstFailureIn]

theorem firstFailureIn_ignored (folder : Path) (n : GoString) (f : Option IOError)
    (cs rest : List Entry) (h : ignoreDynamicDirectories folder n = true) :
    firstFailureIn folder (.dir n f cs :: rest) = firstFailureIn folder rest := by
  rw [firstFailureIn, if_pos h]

theorem firstFailureIn_dir (folder : Path) (n : GoString) (f : Option IOError)
    (cs rest : List Entry) (h : ignoreDynamicDirectories folder n = false) :
    firstFailureIn folder (.dir n f cs :: rest) =
      (firstFailure (Join folder n) f cs).or (firstFailureIn folder rest) := by
  rw [firstFailureIn, if_neg (by simp [h])]
  cases firstFailure (Join folder n) f cs <;> rfl

theorem errorOf_map {α β : Type} (g : α → β) (x : Except IOError α) :
    errorOf (x.map g) = errorOf x := by
  cases x <;> rfl

theorem errorOf_eq_some {α : Type} (x : Except IOError α) (err : IOError) :
    errorOf x = some err ↔ x = .error err := by
  cases x <;> simp [errorOf]

theorem errorOf_eq_none {α : Type} (x : Except IOError α) :
    errorOf x = none ↔ ∃ a, x = .ok a := by
  cases x <;> simp [errorOf]

theorem errorOf_stream (H : List Nat → List Nat) (P : List Entry → Prop)
    (ih : ∀ cs, P cs → ∀ folder f, errorOf (digest H folder f cs) = firstFailure folder f cs)
    (folder : Path) :
    ∀ l : List Entry, (∀ n f cs, Entry.dir n f cs ∈ l → P cs) →
      errorOf (stream H folder l) = firstFailureIn folder l
  | [], _ => by rw [stream_nil, firstFailureIn_nil]; rfl
  | .file n s :: l, hP => by
    rw [stream_file, firstFailureIn_file, errorOf_map]
    exact errorOf_stream H P ih folder l (fun n f cs hm => hP n f cs (List.mem_cons_of_mem _ hm))
  | .dir n f cs :: l, hP => by
    have hrest := errorOf_stream H P ih folder l
      (fun n f cs hm => hP n f cs (List.mem_cons_of_mem _ hm))
    cases hi : ignoreDynamicDirectories folder n with
    | true => rw [stream_ignored _ _ _ _ _ _ hi, firstFailureIn_ignored _ _ _ _ _ hi, hrest]
    | false =>
      rw [stream_dir _ _ _ _ _ _ hi, firstFailureIn_dir _ _ _ _ _ hi,
        ← ih cs (hP n f cs (List.mem_cons_self _ _)), ← hrest]
      cases digest H (Join folder n) f cs with
      | error e => rfl
      | ok d => simp only [errorOf_map]; rfl

/-- The error `DigestFor` returns is the first failure in depth-first order over
the name-sorted listings. -/
theorem errorOf_digest (H : List Nat → List Nat) :
    ∀ es, ∀ folder f, errorOf (digest H folder f es) = firstFailure folder f es := by
  refine listing_induction _ ?_
  intro es ih folder f
  cases f with
  | some err => rw [digest_some, firstFailure_some]; rfl
  | none =>
    rw [digest_none, firstFailure_none, errorOf_map]
    exact errorOf_stream H _ (fun cs h => h) folder (sorted es)
      (fun n f cs hm => ih n f cs ((sorted_perm es).subset hm))

theorem firstFailureIn_isSome (P : List Entry → Prop)
    (ih : ∀ cs, P cs → ∀ folder f, (firstFailure folder f cs).isSome = true ↔
      Unreadable folder f cs)
    (folder : Path) :
    ∀ l : List Entry, (∀ n f cs, Entry.dir n f cs ∈ l → P cs) →
      ((firstFailureIn folder l).isSome = true ↔
        ∃ n f cs, Entry.dir n f cs ∈ l ∧ ignoreDynamicDirectories folder n = false ∧
          Unreadable (Join folder n) f cs)
  | [], _ => by rw [firstFailureIn_nil]; simp
  | .file n s :: l, hP => by
    rw [firstFailureIn_file, firstFailureIn_isSome P ih folder l
      (fun n f cs hm => hP n f cs (List.mem_cons_of_mem _ hm))]
    simp
  | .dir n f cs :: l, hP => by
    have hrest := firstFailureIn_isSome P ih folder l
      (fun n f cs hm => hP n f cs (List.mem_cons_of_mem _ hm))
    cases hi : ignoreDynamicDirectories folder n with
    | true =>
      rw [firstFailureIn_ignored _ _ _ _ _ hi, hrest]
      constructor
      · rintro ⟨n', f', cs', hm, h1, h2⟩
        exact ⟨n', f', cs', List.mem_cons_of_mem _ hm, h1, h2⟩
      · rintro ⟨n', f', cs', hm, h1, h2⟩
        rcases List.mem_cons.1 hm with heq | hm
        · cases heq
          rw [hi] at h1
          cases h1
        · exact ⟨n', f', cs', hm, h1, h2⟩
    | false =>
      have hc := ih cs (hP n f cs (List.mem_cons_self _ _)) (Join folder n) f
      rw [firstFailureIn_dir _ _ _ _ _ hi]
      constructor
      · intro h
        by_cases hs : (firstFailure (Join folder n) f cs).isSome = true
        · exact ⟨n, f, cs, List.mem_cons_self _ _, hi, hc.1 hs⟩
        · have hn : firstFailure (Join folder n) f cs = none := by
            cases hv : firstFailure (Join folder n) f cs with
            | none => rfl
            | some v => rw [hv] at hs; exact absurd rfl hs
          rw [hn] at h
          obtain ⟨n', f', cs', hm, h1, h2⟩ := hrest.1 h
          exact ⟨n', f', cs', List.mem_cons_of_mem _ hm, h1, h2⟩
      · rintro ⟨n', f', cs', hm, h1, h2⟩
        rcases List.mem_cons.1 hm with heq | hm
        · cases heq
          have := hc.2 h2
          cases hv : firstFailure (Join folder n) f cs with
          | none => rw [hv] at this; cases this
          | some v => rfl
        · have := hrest.2 ⟨n', f', cs', hm, h1, h2⟩
          cases firstFailure (Join folder n) f cs with
          | none => exact this
          | some v => rfl

theorem firstFailure_isSome :
    ∀ es, ∀ folder f, (firstFailure folder f es).isSome = true ↔ Unreadable folder f es := by
  refine listing_induction _ ?_
  intro es ih folder f
  cases f with
  | some err =>
    rw [firstFailure_some]
    exact ⟨fun _ => Unreadable.here folder err es, fun _ => rfl⟩
  | none =>
    rw [firstFailure_none, firstFailureIn_isSome _ (fun cs h => h) folder (sorted es)
      (fun n f cs hm => ih n f cs ((sorted_perm es).subset hm))]
    constructor
    · rintro ⟨n, f, cs, hm, h1, h2⟩
      exact Unreadable.inside folder none es n f cs ((sorted_perm es).subset hm) h1 h2
    · intro h
      cases h with
      | inside _ _ _ n f cs hm h1 h2 =>
        exact ⟨n, f, cs, (sorted_perm es).symm.subset hm, h1, h2⟩

/-- C14: `DigestFor` returns an error, and then no digest, exactly when the root
or a directory below it that is reached through directories that are not
ignored-dynamic cannot be opened or listed; the error is that of the first
failing directory in depth-first order over the name-sorted listings; a
digest is returned exactly when there is no such directory.  In `treeH` the
error of `m/q` is returned, before that of `z`; in `treeB` the unreadable
`__PyCache__` causes no failure. -/
theorem DigestFor_failure (H : List Nat → List Nat) (folder : Path)
    (failure : Option IOError) (es : List Entry) (collect : Collect) :
    (∀ err, (DigestFor H folder failure es collect).1 = .error err ↔
        firstFailure folder failure es = some err) ∧
      ((∃ err, (DigestFor H folder failure es collect).1 = .error err) ↔
        Unreadable folder failure es) ∧
      ((∃ d, (DigestFor H folder failure es collect).1 = .ok d) ↔
        ¬ Unreadable folder failure es) ∧
      (DigestFor H [ascii "env"] none treeH collect).1 = .error "q: permission denied" ∧
      ¬ Unreadable [ascii "env"] none treeB := by
  have hfirst : ∀ folder failure es err,
      (DigestFor H folder failure es collect).1 = .error err ↔
        firstFailure folder failure es = some err := by
    intro folder failure es err
    rw [DigestFor_fst, ← errorOf_digest H es folder failure, errorOf_eq_some]
  have hsome : ∀ folder failure es,
      (∃ err, (DigestFor H folder failure es collect).1 = .error err) ↔
        Unreadable folder failure es := by
    intro folder failure es
    rw [← firstFailure_isSome es folder failure, Option.isSome_iff_exists]
    exact exists_congr fun err => hfirst folder failure es err
  refine ⟨hfirst folder failure es, hsome folder failure es, ?_, ?_, ?_⟩
  · rw [← hsome]
    cases (DigestFor H folder failure es collect).1 <;> simp
  · rw [hfirst]
    simp [treeH, firstFailure, firstFailureIn, sorted, nameLE, nameLess, strLess, Entry.Name, ascii,
      ignoreDynamicDirectories, ToLower, toLowerByte, Base, Join]
  · rw [← firstFailure_isSome]
    simp [treeB, firstFailure, firstFailureIn, sorted, nameLE, nameLess, strLess, Entry.Name, ascii,
      ignoreDynamicDirectories, ToLower, toLowerByte, Base, Join]

/-! ### The collected map -/

theorem finish_ok {H : List Nat → List Nat} {folder : Path} {o : Outcome} {d : List Nat}
    {c' : Collect} (h : finish H folder o = (.ok d, c')) :
    ∃ w c, o = (.ok w, c) ∧ d = H w ∧ c' = c.record folder (hexBytes (H w)) := by
  obtain ⟨r, c⟩ := o
  cases r with
  | error e => simp [finish] at h
  | ok w =>
    simp only [finish, Prod.mk.injEq, Except.ok.injEq] at h
    exact ⟨w, c, rfl, h.1.symm, h.2.symm⟩

theorem resume_ok {H : List Nat → List Nat} {folder : Path} {rest : List Entry} {w w' : List Nat}
    {o : Outcome} {c' : Collect} (h : resume H folder rest w o = (.ok w', c')) :
    ∃ dn c1, o = (.ok dn, c1) ∧ digestLoop H folder rest (w ++ dn) c1 = (.ok w', c') := by
  obtain ⟨r, c⟩ := o
  cases r with
  | error e => simp [resume] at h
  | ok dn => exact ⟨dn, c, rfl, h⟩

theorem Visited_extends {folder : Path} {es : List Entry} {p : Path} {cs : List Entry}
    (h : Visited folder es p cs) : folder <+: p := by
  induction h with
  | root folder es => exact List.prefix_refl folder
  | inside folder es n f cs p cs' _ _ _ ih =>
    exact (List.prefix_append folder [n]).trans ih

theorem Join_eq_of_extends {folder : Path} {n n' : GoString} {p : Path}
    (h1 : Join folder n <+: p) (h2 : Join folder n' <+: p) : n = n' := by
  have hlen : (Join folder n).length = (Join folder n').length := by simp [Join]
  have hpre : Join folder n <+: Join folder n' :=
    List.prefix_of_prefix_length_le h1 h2 (Nat.le_of_eq hlen)
  have := hpre.eq_of_length hlen
  simpa [Join] using this

theorem Join_ne_of_extends {folder : Path} {n : GoString} {p : Path}
    (h : Join folder n <+: p) : folder ≠ p := by
  intro he
  have := h.length_le
  rw [← he] at this
  simp [Join] at this

theorem lookup_append_some (a b : List (Path × GoString)) (p : Path) :
    Collect.lookup (some (a ++ b)) p =
      (Collect.lookup (some a) p).or (Collect.lookup (some b) p) := by
  simp only [Collect.lookup, Option.some_bind, List.find?_append]
  cases List.find? (fun kv => kv.1 == p) a <;> rfl

theorem lookup_none_of_keys (a : List (Path × GoString)) (p : Path)
    (h : ∀ kv ∈ a, kv.1 ≠ p) : Collect.lookup (some a) p = none := by
  simp only [Collect.lookup, Option.some_bind, Option.map_eq_none', List.find?_eq_none]
  intro kv hkv
  simpa using h kv hkv

theorem lookup_cons_self (folder : Path) (v : GoString) (a : List (Path × GoString)) :
    Collect.lookup (some ((folder, v) :: a)) folder = some v := by
  simp [Collect.lookup]

theorem lookup_cons_ne (folder p : Path) (v : GoString) (a : List (Path × GoString))
    (h : folder ≠ p) :
    Collect.lookup (some ((folder, v) :: a)) p = Collect.lookup (some a) p := by
  simp [Collect.lookup, h]

theorem digestLoop_records (H : List Nat → List Nat) (folder : Path) :
    ∀ (l : List Entry), NamesNodup l →
      (∀ n f cs, Entry.dir n f cs ∈ l → DistinctNames cs ∧ Records H cs) →
      ∀ (w : List Nat) (m : List (Path × GoString)) (w' : List Nat) (c' : Collect),
        digestLoop H folder l w (some m) = (.ok w', c') →
        ∃ recs, c' = some (recs ++ m) ∧
          (∀ kv ∈ recs, ∃ n f cs cs', Entry.dir n f cs ∈ l ∧
            ignoreDynamicDirectories folder n = false ∧
            Visited (Join folder n) cs kv.1 cs') ∧
          ∀ n f cs p cs', Entry.dir n f cs ∈ l → ignoreDynamicDirectories folder n = false →
            Visited (Join folder n) cs p cs' →
            ∃ dp, digest H p none cs' = .ok dp ∧
              Collect.lookup (some recs) p = some (hexBytes dp)
  | [], _, _, w, m, w', c', h => by
    rw [digestLoop_nil] at h
    simp only [Prod.mk.injEq] at h
    refine ⟨[], h.2.symm, fun kv hkv => (by cases hkv), ?_⟩
    intro n f cs p cs' hm
    cases hm
  | .file n s :: l, hnd, hS, w, m, w', c', h => by
    rw [digestLoop_file] at h
    obtain ⟨recs, hc, hk, hv⟩ := digestLoop_records H folder l (List.Pairwise.of_cons hnd)
      (fun n f cs hm => hS n f cs (List.mem_cons_of_mem _ hm)) _ m w' c' h
    refine ⟨recs, hc, ?_, ?_⟩
    · intro kv hkv
      obtain ⟨n', f', cs, cs', hm, h1, h2⟩ := hk kv hkv
      exact ⟨n', f', cs, cs', List.mem_cons_of_mem _ hm, h1, h2⟩
    · intro n' f' cs p cs' hm h1 h2
      rcases List.mem_cons.1 hm with heq | hm
      · cases heq
      · exact hv n' f' cs p cs' hm h1 h2
  | .dir n f cs :: l, hnd, hS, w, m, w', c', h => by
    have hrec := digestLoop_records H folder l (List.Pairwise.of_cons hnd)
      (fun n f cs hm => hS n f cs (List.mem_cons_of_mem _ hm))
    cases hi : ignoreDynamicDirectories folder n with
    | true =>
      rw [digestLoop_ignored _ _ _ _ _ _ _ _ hi] at h
      obtain ⟨recs, hc, hk, hv⟩ := hrec _ m w' c' h
      refine ⟨recs, hc, ?_, ?_⟩
      · intro kv hkv
        obtain ⟨n', f', cs1, cs', hm, h1, h2⟩ := hk kv hkv
        exact ⟨n', f', cs1, cs', List.mem_cons_of_mem _ hm, h1, h2⟩
      · intro n' f' cs1 p cs' hm h1 h2
        rcases List.mem_cons.1 hm with heq | hm
        · cases heq
          rw [hi] at h1
          cases h1
        · exact hv n' f' cs1 p cs' hm h1 h2
    | false =>
      rw [digestLoop_dir _ _ _ _ _ _ _ _ hi] at h
      obtain ⟨dn, c1, hchild, hloop⟩ := resume_ok h
      obtain ⟨hdist, hrecords⟩ := hS n f cs (List.mem_cons_self _ _)
      obtain ⟨recs1, hc1, hk1, hv1⟩ := hrecords (Join folder n) f m dn c1 hdist hchild
      rw [hc1] at hloop
      obtain ⟨recs2, hc2, hk2, hv2⟩ := hrec _ (recs1 ++ m) w' c' hloop
      have hfresh : ∀ p cs', Visited (Join folder n) cs p cs' →
          Collect.lookup (some recs2) p = none := by
        intro p cs' hvis
        refine lookup_none_of_keys recs2 p ?_
        intro kv hkv hkey
        obtain ⟨n2, f2, cs2, cs2', hm2, _, hvis2⟩ := hk2 kv hkv
        rw [hkey] at hvis2
        have hname : n = n2 := Join_eq_of_extends (Visited_extends hvis) (Visited_extends hvis2)
        exact List.rel_of_pairwise_cons hnd hm2 (by simp [Entry.Name, hname])
      refine ⟨recs2 ++ recs1, by rw [hc2, List.append_assoc], ?_, ?_⟩
      · intro kv hkv
        rcases List.mem_append.1 hkv with hkv | hkv
        · obtain ⟨n', f', cs1, cs', hm, h1, h2⟩ := hk2 kv hkv
          exact ⟨n', f', cs1, cs', List.mem_cons_of_mem _ hm, h1, h2⟩
        · obtain ⟨cs', hvis⟩ := hk1 kv hkv
          exact ⟨n, f, cs, cs', List.mem_cons_self _ _, hi, hvis⟩
      · intro n' f' cs1 p cs' hm h1 h2
        rw [lookup_append_some]
        rcases List.mem_cons.1 hm with heq | hm
        · cases heq
          obtain ⟨dp, hdp, hlk⟩ := hv1 p cs' h2
          exact ⟨dp, hdp, by rw [hfresh p cs' h2, hlk]; rfl⟩
        · obtain ⟨dp, hdp, hlk⟩ := hv2 n' f' cs1 p cs' hm h1 h2
          exact ⟨dp, hdp, by rw [hlk]; rfl⟩

theorem DigestFor_records (H : List Nat → List Nat) : ∀ es, Records H es := by
  refine listing_induction _ ?_
  intro es ih folder f m d c' hd hok
  cases f with
  | some err => rw [DigestFor_some] at hok; cases hok
  | none =>
    have hdig : digest H folder none es = .ok d := by
      rw [← DigestFor_fst H es folder none (some m), hok]
    rw [DigestFor_none] at hok
    obtain ⟨w, c, hloop, _, hc'⟩ := finish_ok hok
    have hnd : NamesNodup (sorted es) :=
      (sorted_perm es).symm.pairwise hd.namesNodup (fun h => fun e => h e.symm)
    obtain ⟨recs, hc, hk, hv⟩ := digestLoop_records H folder (sorted es) hnd
      (fun n f cs hm => by
        have hmem : Entry.dir n f cs ∈ es := (sorted_perm es).subset hm
        have hdn := hd.of_mem _ hmem
        simp only [Entry.DistinctNames] at hdn
        exact ⟨hdn, ih n f cs hmem⟩) [] m w c hloop
    refine ⟨(folder, hexBytes (H w)) :: recs, ?_, ?_, ?_⟩
    · rw [hc', hc]; rfl
    · intro kv hkv
      rcases List.mem_cons.1 hkv with heq | hkv
      · rw [heq]; exact ⟨es, Visited.root folder es⟩
      · obtain ⟨n, f, cs, cs', hm, h1, h2⟩ := hk kv hkv
        exact ⟨cs', Visited.inside folder es n f cs _ cs' ((sorted_perm es).subset hm) h1 h2⟩
    · intro p cs hvis
      cases hvis with
      | root =>
        refine ⟨d, hdig, ?_⟩
        rw [lookup_cons_self]
        have : d = H w := by
          rw [digest_none] at hdig
          have hs : stream H folder (sorted es) = .ok w := by
            have := digestLoop_fst H folder (sorted es) [] (some m)
            rw [hloop] at this
            cases hst : stream H folder (sorted es) with
            | error e => rw [hst] at this; cases this
            | ok t =>
              rw [hst] at this
              simp only [Except.map, List.nil_append, Except.ok.injEq] at this
              rw [this]
          rw [hs] at hdig
          simpa [Except.map] using hdig.symm
        rw [this]
      | inside _ _ n f cs0 _ _ hm h1 h2 =>
        obtain ⟨dp, hdp, hlk⟩ := hv n f cs0 p cs ((sorted_perm es).symm.subset hm) h1 h2
        refine ⟨dp, hdp, ?_⟩
        rw [lookup_cons_ne _ _ _ _ (Join_ne_of_extends (Visited_extends h2)), hlk]

theorem hexDigit_mem {x : Nat} (hx : x < 16) : hexDigit x ∈ ascii "0123456789abcdef" := by
  interval_cases x <;> decide

theorem hexBytes_spec (d : List Nat) (hd : d.length = 32) :
    (hexBytes d).length = 64 ∧ ∀ b ∈ hexBytes d, b ∈ ascii "0123456789abcdef" := by
  have hne : d ≠ [] := by
    intro h
    rw [h] at hd
    cases hd
  have hlen : ∀ l : List Nat,
      (l.flatMap fun b => [hexDigit (b / 16 % 16), hexDigit (b % 16)]).length = 2 * l.length := by
    intro l
    induction l with
    | nil => rfl
    | cons x l ih => simp only [List.flatMap_cons, List.length_append, List.length_cons, ih,
        List.length_nil]; omega
  unfold hexBytes
  rw [if_neg hne]
  refine ⟨by rw [hlen, hd], ?_⟩
  intro b hb
  obtain ⟨x, _, hx⟩ := List.mem_flatMap.1 hb
  simp only [List.mem_cons, List.mem_singleton, List.not_mem_nil, or_false] at hx
  rcases hx with rfl | rfl
  · exact hexDigit_mem (Nat.mod_lt _ (by decide))
  · exact hexDigit_mem (Nat.mod_lt _ (by decide))

theorem BeneathIgnored_extends {folder : Path} {es : List Entry} {p : Path}
    (h : BeneathIgnored folder es p) : folder <+: p := by
  induction h with
  | here folder es n f cs p _ _ hp => exact (List.prefix_append folder [n]).trans hp
  | inside folder es n f cs p _ _ _ ih => exact (List.prefix_append folder [n]).trans ih

theorem dir_unique {es : List Entry} (hd : NamesNodup es) {n : GoString}
    {f f' : Option IOError} {cs cs' : List Entry} (h1 : Entry.dir n f cs ∈ es)
    (h2 : Entry.dir n f' cs' ∈ es) : cs = cs' := by
  by_contra hne
  have hsym : Symmetric fun a b : Entry => a.Name ≠ b.Name := fun _ _ h => fun e => h e.symm
  have := List.Pairwise.forall hsym hd h1 h2 (by
    intro he
    cases he
    exact hne rfl)
  exact this rfl

/-- No visited directory has the path of an ignored-dynamic directory or lies
beneath one. -/
theorem BeneathIgnored.not_visited {folder : Path} {es : List Entry} {p : Path}
    (h : BeneathIgnored folder es p) : DistinctNames es → ∀ cs, ¬ Visited folder es p cs := by
  induction h with
  | here folder es n f cs p hm hi hp =>
    intro _ cs' hvis
    cases hvis with
    | root => exact Join_ne_of_extends hp rfl
    | inside _ _ n' f' cs1 _ _ hm' hi' hv' =>
      have := Join_eq_of_extends hp (Visited_extends hv')
      rw [this, hi'] at hi
      cases hi
  | inside folder es n f cs p hm hi hb ih =>
    intro hd cs' hvis
    cases hvis with
    | root => exact Join_ne_of_extends (BeneathIgnored_extends hb) rfl
    | inside _ _ n' f' cs1 _ _ hm' hi' hv' =>
      have hn := Join_eq_of_extends (BeneathIgnored_extends hb) (Visited_extends hv')
      subst hn
      have hcs := dir_unique hd.namesNodup hm hm'
      subst hcs
      have hdn := hd.of_mem _ hm
      simp only [Entry.DistinctNames] at hdn
      exact ih hdn cs' hv'

/-- C13: after a successful `DigestFor` with a map, the map gives to the path of
every visited directory (the root, and the directories reached through
directories that are not ignored-dynamic) the hexadecimal text of the digest
`DigestFor` returns for that directory, 64 lowercase hexadecimal characters for
a digest of 32 bytes; every other path, in particular that of an ignored-dynamic
directory and everything beneath it, keeps what it had before; and the digest
returned is the one returned without a map.  The names within each directory
are distinct. -/
theorem DigestFor_collect (H : List Nat → List Nat) (folder : Path)
    (failure : Option IOError) (es : List Entry) (m : List (Path × GoString)) (d : List Nat)
    (c' : Collect) (hd : DistinctNames es)
    (hok : DigestFor H folder failure es (some m) = (.ok d, c')) :
    (∀ p cs, Visited folder es p cs →
        ∃ dp, (DigestFor H p none cs none).1 = .ok dp ∧
          c'.lookup p = some (hexBytes dp) ∧
          (dp.length = 32 →
            (hexBytes dp).length = 64 ∧ ∀ b ∈ hexBytes dp, b ∈ ascii "0123456789abcdef")) ∧
      (∀ p, (∀ cs, ¬ Visited folder es p cs) → c'.lookup p = Collect.lookup (some m) p) ∧
      (∀ p, BeneathIgnored folder es p → c'.lookup p = Collect.lookup (some m) p) ∧
      (DigestFor H folder failure es none).1 = .ok d := by
  obtain ⟨recs, hc, hk, hv⟩ := DigestFor_records H es folder failure m d c' hd hok
  have hkeep : ∀ p, (∀ cs, ¬ Visited folder es p cs) →
      c'.lookup p = Collect.lookup (some m) p := by
    intro p hp
    rw [hc, lookup_append_some, lookup_none_of_keys recs p]
    · rfl
    · intro kv hkv hkey
      obtain ⟨cs, hvis⟩ := hk kv hkv
      rw [hkey] at hvis
      exact hp cs hvis
  refine ⟨?_, hkeep, fun p hp => hkeep p (hp.not_visited hd), ?_⟩
  · intro p cs hvis
    obtain ⟨dp, hdp, hlk⟩ := hv p cs hvis
    refine ⟨dp, hdp, ?_, hexBytes_spec dp⟩
    rw [hc, lookup_append_some, hlk]
    rfl
  · have := DigestFor_fst H es folder failure (some m)
    rw [hok] at this
    exact this.symm

/-- The collected-map theorem on `treeB`, with `toyHash` and an empty map: the
root and `ComTypes` are recorded, `ComTypes/gen` is not. -/
theorem DigestFor_collect_witness :
    DigestFor toyHash [ascii "env"] none treeB (some []) =
        (.ok [7], some [([ascii "env"], ascii "07"),
          ([ascii "env", ascii "ComTypes"], ascii "06")]) ∧
      (DigestFor toyHash [ascii "env"] none treeB none).1 = .ok [7] ∧
      Collect.lookup (some [([ascii "env"], ascii "07"),
          ([ascii "env", ascii "ComTypes"], ascii "06")])
        [ascii "env", ascii "ComTypes", ascii "gen"] = Collect.lookup (some []) 
          [ascii "env", ascii "ComTypes", ascii "gen"] :=
  have hd : DistinctNames treeB := by
    simp [treeB, DistinctNames, Entry.DistinctNames, Entry.Name, ascii]
  have hok : DigestFor toyHash [ascii "env"] none treeB (some []) =
      (.ok [7], some [([ascii "env"], ascii "07"),
        ([ascii "env", ascii "ComTypes"], ascii "06")]) := by
    simp [treeB, toyHash, DigestFor, digestLoop, sorted, nameLE, nameLess, strLess, Entry.Name,
      ascii, repr, hex, hexDigit, hexBytes, Collect.record, ignoreDynamicDirectories, ToLower,
      toLowerByte, Base, Join]
  have h := DigestFor_collect toyHash [ascii "env"] none treeB [] [7] _ hd hok
  have hb : BeneathIgnored [ascii "env"] treeB
      [ascii "env", ascii "ComTypes", ascii "gen"] :=
    BeneathIgnored.inside [ascii "env"] treeB (ascii "ComTypes") none
      [.dir (ascii "gen") none [.file (ascii "g") 5], .file (ascii "z") 2]
      [ascii "env", ascii "ComTypes", ascii "gen"] (by simp [treeB])
      (by simp [ignoreDynamicDirectories, ToLower, toLowerByte, Base, ascii])
      (BeneathIgnored.here (Join [ascii "env"] (ascii "ComTypes")) _ (ascii "gen") none
        [.file (ascii "g") 5] _ (by simp)
        (by simp [ignoreDynamicDirectories, ToLower, toLowerByte, Base, Join, ascii])
        (List.prefix_refl _))
  ⟨hok, h.2.2.2, h.2.2.1 _ hb⟩

end conda


namespace rcc

theorem wrap64_eq {x : Int} (h1 : -2 ^ 63 ≤ x) (h2 : x < 2 ^ 63) : wrap64 x = x := by
  unfold wrap64
  omega

theorem TimezoneMetric_throttled (env : Call) (w : World) (d : Int)
    (hd : w.stamps timezonekey = some d) (hlt : env.When < d) :
    (TimezoneMetric env w).2 = w := by
  unfold TimezoneMetric
  cases env.summonErr with
  | some err => rfl
  | none => simp [hd, hlt]

theorem TimezoneMetrics_throttled (w : World) (d : Int) (hd : w.stamps timezonekey = some d) :
    ∀ calls : List Call, (∀ c ∈ calls, c.When < d) → TimezoneMetrics calls w = w := by
  intro calls
  induction calls with
  | nil => intro _; rfl
  | cons c cs ih =>
    intro h
    simp only [TimezoneMetrics, List.foldl_cons]
    rw [TimezoneMetric_throttled c w d hd (h c (List.mem_cons_self _ _))]
    exact ih (fun x hx => h x (List.mem_cons_of_mem _ hx))

theorem TimezoneMetric_due (env : Call) (w : World) (hload : env.summonErr = none)
    (hdue : ∀ d, w.stamps timezonekey = some d → d ≤ env.When) :
    TimezoneMetric env w =
      match env.saveErr with
      | some err =>
        (some err, { w with metrics := w.metrics ++ [(env.identity, timezonekey, env.zone)] })
      | none =>
        (none, { stamps := w.stamps.set timezonekey (wrap64 (env.When + daily)),
                 metrics := w.metrics ++ [(env.identity, timezonekey, env.zone)] }) := by
  unfold TimezoneMetric
  rw [hload]
  cases hs : w.stamps timezonekey with
  | none => simp [hs]
  | some d =>
    have := hdue d hs
    simp [hs, not_lt.2 this]

/-- A call that emitted and returned no error was due, loaded and saved. -/
theorem TimezoneMetric_emitted (env : Call) (w : World)
    (hret : (TimezoneMetric env w).1 = none)
    (hemit : (TimezoneMetric env w).2.metrics =
      w.metrics ++ [(env.identity, timezonekey, env.zone)]) :
    (TimezoneMetric env w).2.stamps = w.stamps.set timezonekey (wrap64 (env.When + daily)) := by
  unfold TimezoneMetric at hret hemit ⊢
  cases hl : env.summonErr with
  | some err => simp [hl] at hret
  | none =>
    simp only [hl] at hret hemit ⊢
    split_ifs at hret hemit ⊢ with hthr
    · simp at hemit
    · cases hsv : env.saveErr with
      | some err => simp [hsv] at hret
      | none => rfl

theorem wrap64_range (x : Int) : -2 ^ 63 ≤ wrap64 x ∧ wrap64 x < 2 ^ 63 := by
  unfold wrap64
  omega

theorem wrap64_congr (x : Int) : (2 : Int) ^ 64 ∣ wrap64 x - x := by
  unfold wrap64
  exact ⟨-((x + 2 ^ 63) / 2 ^ 64), by omega⟩

/-- C6, as stated, fails where adding a day leaves the range of `int64`: the
call at `2^63 - 86400` emits and saves, but the deadline it stores wraps around
to `-2^63`, so the later call at `2^63 - 1`, less than a day after, emits the
event again and changes the cache. -/
theorem TimezoneMetric_daily_overflow :
    (TimezoneMetric (callAt 9223372036854689408) freshWorld).1 = none ∧
      (TimezoneMetric (callAt 9223372036854689408) freshWorld).2.metrics =
        [("rcc.user", "rcc.cli.tz", "UTC+0000")] ∧
      (TimezoneMetric (callAt 9223372036854689408) freshWorld).2.stamps timezonekey =
        some (-9223372036854775808) ∧
      (9223372036854689408 : Int) ≤ 9223372036854775807 ∧
      (9223372036854775807 : Int) < 9223372036854689408 + 86400 ∧
      (TimezoneMetric (callAt 9223372036854775807)
          (TimezoneMetric (callAt 9223372036854689408) freshWorld).2).2.metrics =
        [("rcc.user", "rcc.cli.tz", "UTC+0000"), ("rcc.user", "rcc.cli.tz", "UTC+0000")] ∧
      (TimezoneMetric (callAt 9223372036854775807)
          (TimezoneMetric (callAt 9223372036854689408) freshWorld).2).2.stamps timezonekey =
        some (-9223372036854689409) := by
  simp [TimezoneMetric, callAt, freshWorld, timezonekey, StampMap.set, wrap64, daily]

/-- C6, amended: with the deadline computed as the code computes it, in `int64`
arithmetic that wraps around, a call at time `t` that emitted the event and
saved has stored the deadline `wrap64 (t + 86400)`; later calls at times before
that deadline emit nothing and leave the cache unchanged (whatever fails); a
call at a time from that deadline on that loads the cache emits the event again
and, when it saves, stores the deadline `wrap64 (t' + 86400)`.  The wrapped
value lies in the range of `int64`, differs from the sum by a multiple of
`2^64`, and is the sum itself when the sum is in range. -/
theorem TimezoneMetric_daily (first : Call) (w : World)
    (hret : (TimezoneMetric first w).1 = none)
    (hemit : (TimezoneMetric first w).2.metrics =
      w.metrics ++ [(first.identity, timezonekey, first.zone)]) :
    (TimezoneMetric first w).2.stamps timezonekey = some (wrap64 (first.When + 86400)) ∧
      (∀ calls : List Call, (∀ c ∈ calls, c.When < wrap64 (first.When + 86400)) →
        TimezoneMetrics calls (TimezoneMetric first w).2 = (TimezoneMetric first w).2) ∧
      (∀ (calls : List Call) (next : Call),
        (∀ c ∈ calls, c.When < wrap64 (first.When + 86400)) →
        wrap64 (first.When + 86400) ≤ next.When → next.summonErr = none →
        (TimezoneMetric next (TimezoneMetrics calls (TimezoneMetric first w).2)).2.metrics =
            (TimezoneMetric first w).2.metrics ++ [(next.identity, timezonekey, next.zone)] ∧
          (next.saveErr = none →
            TimezoneMetric next (TimezoneMetrics calls (TimezoneMetric first w).2) =
              (none,
                { stamps :=
                    (TimezoneMetric first w).2.stamps.set timezonekey
                      (wrap64 (next.When + 86400)),
                  metrics := (TimezoneMetric first w).2.metrics ++
                    [(next.identity, timezonekey, next.zone)] }))) ∧
      (∀ x : Int, -2 ^ 63 ≤ wrap64 x ∧ wrap64 x < 2 ^ 63 ∧ (2 : Int) ^ 64 ∣ wrap64 x - x ∧
        (-2 ^ 63 ≤ x → x < 2 ^ 63 → wrap64 x = x)) := by
  have hst := TimezoneMetric_emitted first w hret hemit
  have hkey : (TimezoneMetric first w).2.stamps timezonekey =
      some (wrap64 (first.When + 86400)) := by
    rw [hst]
    simp [StampMap.set, daily]
  refine ⟨hkey, fun calls h => TimezoneMetrics_throttled _ _ hkey calls h, ?_,
    fun x => ⟨(wrap64_range x).1, (wrap64_range x).2, wrap64_congr x, wrap64_eq⟩⟩
  intro calls next h hnext hload
  rw [TimezoneMetrics_throttled _ _ hkey calls h,
    TimezoneMetric_due next _ hload (fun d hd => by rw [hkey] at hd; cases hd; exact hnext)]
  constructor
  · cases next.saveErr <;> rfl
  · intro hsave
    rw [hsave]
    simp [daily]

/-- The throttle theorem on a fresh cache: a first call, two calls within the
day, and a call one day after the first; and a first call at `2^63 - 86300`,
whose stored deadline wraps around to `-2^63 + 100`, so that the call at
`2^63 - 1` emits again and stores the wrapped deadline `-2^63 + 86399`. -/
theorem TimezoneMetric_daily_witness :
    TimezoneMetrics [callAt 1700000100, callAt 1700086399]
        (TimezoneMetric (callAt 1700000000) freshWorld).2 =
      (TimezoneMetric (callAt 1700000000) freshWorld).2 ∧
    (TimezoneMetric (callAt 1700086400)
        (TimezoneMetrics [callAt 1700000100, callAt 1700086399]
          (TimezoneMetric (callAt 1700000000) freshWorld).2)).2.metrics =
      [("rcc.user", "rcc.cli.tz", "UTC+0000"), ("rcc.user", "rcc.cli.tz", "UTC+0000")] ∧
    (TimezoneMetric (callAt 9223372036854775807)
        (TimezoneMetric (callAt 9223372036854689508) freshWorld).2).2.stamps timezonekey =
      some (-9223372036854689409) :=
  have h := TimezoneMetric_daily (callAt 1700000000) freshWorld
    (by simp [TimezoneMetric, callAt, freshWorld])
    (by simp [TimezoneMetric, callAt, freshWorld])
  have hc : ∀ c ∈ [callAt 1700000100, callAt 1700086399],
      c.When < wrap64 ((callAt 1700000000).When + 86400) := by
    simp [callAt, wrap64]
  have h' := TimezoneMetric_daily (callAt 9223372036854689508) freshWorld
    (by simp [TimezoneMetric, callAt, freshWorld])
    (by simp [TimezoneMetric, callAt, freshWorld])
  have hwrapped := (h'.2.2.1 [] (callAt 9223372036854775807) (by simp)
    (by simp [callAt, wrap64]) rfl).2 rfl
  ⟨h.2.1 _ hc, by
    rw [(h.2.2.1 _ (callAt 1700086400) hc (by simp [callAt, wrap64]) rfl).1]
    simp [TimezoneMetric, callAt, freshWorld, timezonekey], by
    simp only [TimezoneMetrics, List.foldl_nil] at hwrapped
    rw [hwrapped]
    simp [StampMap.set, callAt, wrap64]⟩


/-! ### The exit protocol -/

theorem markTempForRecycling_quiet (env : Env) (markedAlready : Bool) :
    ∀ e ∈ (markTempForRecycling env markedAlready).1,
      e.isFlush = false ∧ e.isFinal = false ∧ e.isPanicMetric = false := by
  unfold markTempForRecycling
  cases markedAlready <;> simp [Event.isFlush, Event.isFinal, Event.isPanicMetric]

/-- C7: on every path through `ExitProtection` the effects end with the
telemetry flush, then the log flush, then the action that leaves the function
(return, `os.Exit` or the re-raised panic); no flush and no leaving action
occurs earlier, so each flush is performed exactly once. -/
theorem ExitProtection_flushes_once (env : Env) (status : Option Recovered)
    (markedAlready : Bool) :
    (∃ before final, (ExitProtection env status markedAlready).1 =
        before ++ [.WaitTelemetry, .WaitLogs, final] ∧ final.isFinal = true ∧
        ∀ e ∈ before, e.isFlush = false ∧ e.isFinal = false) ∧
      (ExitProtection env status markedAlready).1.count .WaitTelemetry = 1 ∧
      (ExitProtection env status markedAlready).1.count .WaitLogs = 1 := by
  have hq := markTempForRecycling_quiet env markedAlready
  have hc : ∀ f : Event, f.isFlush = true →
      (markTempForRecycling env markedAlready).1.count f = 0 := by
    intro f hf
    rw [List.count_eq_zero]
    intro hmem
    rw [(hq f hmem).1] at hf
    cases hf
  rcases status with _ | ⟨code, message⟩ | value
  · exact ⟨⟨[], .Return, rfl, rfl, fun _ h => by cases h⟩, rfl, rfl⟩
  · refine ⟨⟨(markTempForRecycling env markedAlready).1 ++ [.ShowMessage message], .Exit code,
      by simp [ExitProtection], rfl, ?_⟩, ?_, ?_⟩
    · intro e he
      rcases List.mem_append.1 he with h | h
      · exact ⟨(hq e h).1, (hq e h).2.1⟩
      · rw [List.mem_singleton.1 h]; exact ⟨rfl, rfl⟩
    · simp [ExitProtection, List.count_append, hc .WaitTelemetry rfl, List.count_cons]
    · simp [ExitProtection, List.count_append, hc .WaitLogs rfl, List.count_cons]
  · refine ⟨⟨(markTempForRecycling env markedAlready).1 ++
        [.BackgroundMetric env.identity "rcc.panic.origin" env.origin], .Panic (.other value),
      by simp [ExitProtection], rfl, ?_⟩, ?_, ?_⟩
    · intro e he
      rcases List.mem_append.1 he with h | h
      · exact ⟨(hq e h).1, (hq e h).2.1⟩
      · rw [List.mem_singleton.1 h]; exact ⟨rfl, rfl⟩
    · simp [ExitProtection, List.count_append, hc .WaitTelemetry rfl, List.count_cons]
    · simp [ExitProtection, List.count_append, hc .WaitLogs rfl, List.count_cons]

/-- C8: `ExitProtection` dispatches on the recovered value.  For a typed
`ExitCode` it shows the message and leaves with `os.Exit` of the carried code,
with no panic-origin metric and no panic.  For any other value it reports the
`rcc.panic.origin` metric before the flushes and leaves by re-raising the same
value.  Without a panic it returns, with no exit, panic or metric. -/
theorem ExitProtection_dispatch (env : Env) (markedAlready : Bool) :
    (∀ code message, ∃ before,
        (ExitProtection env (some (.exitCode code message)) markedAlready).1 =
          before ++ [.ShowMessage message, .WaitTelemetry, .WaitLogs, .Exit code] ∧
        ∀ e ∈ before, e.isPanicMetric = false ∧ e.isFinal = false) ∧
      (∀ value, ∃ before,
        (ExitProtection env (some (.other value)) markedAlready).1 =
          before ++ [.BackgroundMetric env.identity "rcc.panic.origin" env.origin,
            .WaitTelemetry, .WaitLogs, .Panic (.other value)] ∧
        ∀ e ∈ before, e.isFlush = false ∧ e.isFinal = false) ∧
      (ExitProtection env none markedAlready).1 = [.WaitTelemetry, .WaitLogs, .Return] := by
  have hq := markTempForRecycling_quiet env markedAlready
  refine ⟨fun code message => ⟨(markTempForRecycling env markedAlready).1, rfl, ?_⟩,
    fun value => ⟨(markTempForRecycling env markedAlready).1, rfl, ?_⟩, rfl⟩
  · exact fun e he => ⟨(hq e he).2.2, (hq e he).2.1⟩
  · exact fun e he => ⟨(hq e he).1, (hq e he).2.1⟩

end rcc


namespace rcc

theorem TimezoneMetric_not_due (env : Call) (w : World) (hload : env.summonErr = none)
    (h : ¬ due env w) : TimezoneMetric env w = (none, w) := by
  unfold due at h
  push_neg at h
  obtain ⟨d, hd, hlt⟩ := h
  unfold TimezoneMetric
  rw [hload]
  simp [hd, hlt]

/-- C16: `TimezoneMetric` returns an error exactly when loading the cache fails,
or the event is due and saving fails.  When loading fails nothing is emitted or
saved; when the event is throttled nothing is emitted or saved and no error is
returned; when saving fails the save error is returned, the event has been
emitted, and the persisted cache is unchanged. -/
theorem TimezoneMetric_errors (env : Call) (w : World) :
    ((TimezoneMetric env w).1.isSome = true ↔
        env.summonErr.isSome = true ∨ (due env w ∧ env.saveErr.isSome = true)) ∧
      (∀ err, env.summonErr = some err → TimezoneMetric env w = (some err, w)) ∧
      (env.summonErr = none → ¬ due env w → TimezoneMetric env w = (none, w)) ∧
      (∀ err, env.summonErr = none → due env w → env.saveErr = some err →
        TimezoneMetric env w =
          (some err,
            { stamps := w.stamps,
              metrics := w.metrics ++ [(env.identity, timezonekey, env.zone)] })) := by
  refine ⟨?_, ?_, TimezoneMetric_not_due env w, ?_⟩
  · cases hl : env.summonErr with
    | some err => simp [TimezoneMetric, hl]
    | none =>
      by_cases hd : due env w
      · rw [TimezoneMetric_due env w hl hd]
        cases env.saveErr <;> simp [hd]
      · rw [TimezoneMetric_not_due env w hl hd]
        simp [hd]
  · intro err hl
    simp [TimezoneMetric, hl]
  · intro err hl hd hs
    rw [TimezoneMetric_due env w hl hd, hs]

theorem markTempForRecycling_marked (env : Env) :
    markTempForRecycling env true = ([], true) := rfl

theorem markTempForRecyclingTimes_marked (env : Env) :
    ∀ count, markTempForRecyclingTimes env count true = ([], true) := by
  intro count
  induction count with
  | zero => rfl
  | succ n ih => simp [markTempForRecyclingTimes, markTempForRecycling_marked, ih]

theorem ExitProtection_marked (env : Env) (panic : Option Recovered) :
    ((ExitProtection env panic true).1.filter Event.isMarkerWrite) = [] := by
  rcases panic with _ | ⟨code, message⟩ | value <;> rfl

/-- C15: starting with `markedAlready` false, any sequence of one or more calls
of `markTempForRecycling` writes the marker exactly once, in the first call,
and every later call does nothing; and in every run of `main`, normal or
panicking, the marker is written exactly once. -/
theorem markTempForRecycling_once (env : Env) (count : Nat) (panic : Option Recovered) :
    markTempForRecyclingTimes env (count + 1) false = markTempForRecycling env false ∧
      ((markTempForRecycling env false).1.filter Event.isMarkerWrite).length = 1 ∧
      (markTempForRecycling env false).2 = true ∧
      markTempForRecycling env true = ([], true) ∧
      ((main env panic).filter Step.isMarkerWrite).length = 1 := by
  refine ⟨?_, rfl, rfl, rfl, ?_⟩
  · simp [markTempForRecyclingTimes, markTempForRecycling, markTempForRecyclingTimes_marked]
  · rcases panic with _ | ⟨code, message⟩ | value <;> rfl

theorem Since_gt_gracePeriod (now changed : Int) :
    Since now changed > gracePeriod ↔ now - changed > gracePeriod := by
  unfold Since gracePeriod
  omega

/-- C12: in the recycling scan the folder of a marker is scheduled for removal
exactly when the modification time of the folder can be read and more than 48
hours have passed since; the time of the marker plays no part.  In
`exampleScan` only the folder changed 49 hours ago is removed, although its
marker is one hour old. -/
theorem startTempRecycling_expiry (found : List String)
    (Modtime : String → Except String Int) (clock : String → Int) (folder : String) :
    (Recycling.GoRemoveAll folder ∈
          startTempRecycling { found := .ok found, Modtime := Modtime, clock := clock } ↔
        ∃ filename ∈ found, Dir filename = folder ∧
          ∃ changed, Modtime folder = .ok changed ∧ clock filename - changed > gracePeriod) ∧
      startTempRecycling exampleScan = [.GoRemoveAll "/t/a", .Gosched] := by
  refine ⟨?_, by decide⟩
  generalize hscan : ({ found := .ok found, Modtime := Modtime, clock := clock } : Scan) = scan
  have hfound : scan.found = .ok found := by rw [← hscan]
  have hM : scan.Modtime = Modtime := by rw [← hscan]
  have hC : scan.clock = clock := by rw [← hscan]
  rw [← hM, ← hC]
  unfold startTempRecycling
  rw [hfound]
  simp only [List.mem_append, List.mem_filterMap, List.mem_singleton, reduceCtorEq, or_false]
  constructor
  · rintro ⟨filename, hmem, h⟩
    by_cases he : expired scan filename = true
    · rw [if_pos he] at h
      have hdir : Dir filename = folder := by simpa using h
      refine ⟨filename, hmem, hdir, ?_⟩
      unfold expired at he
      rw [hdir] at he
      cases hm : scan.Modtime folder with
      | error e => rw [hm] at he; cases he
      | ok changed =>
        rw [hm] at he
        exact ⟨changed, rfl, (Since_gt_gracePeriod _ _).1 (by simpa using he)⟩
    · rw [if_neg he] at h
      cases h
  · rintro ⟨filename, hmem, hdir, changed, hm, hgt⟩
    refine ⟨filename, hmem, ?_⟩
    have he : expired scan filename = true := by
      unfold expired
      rw [hdir, hm]
      simpa using (Since_gt_gracePeriod _ _).2 hgt
    rw [if_pos he, hdir]

end rcc
